import Mathlib

/-!
# SHA-256 streaming digest (`sha256.go`): embedding and verified properties

The Go code is embedded shallowly.  Bytes, `uint32` and `uint64` values are natural
numbers with explicit reduction modulo `2^32` / `2^64` where the machine operation
wraps.  Arrays and slices are lists; every index or slice expression that Go checks at
run time is a checked operation returning `Option`, `none` standing for the run-time
panic.  The process-wide variable `blockfunc` is an explicit parameter.
-/

namespace Sha256

/-! ## Constants and the digest state -/

/-- The size of a SHA256 checksum in bytes. -/
def Size : Nat := 32

/-- The blocksize of SHA256 in bytes. -/
def BlockSize64 : Nat := 64

def Chunk64 : Nat := BlockSize64

def init0 : Nat := 0x6A09E667
def init1 : Nat := 0xBB67AE85
def init2 : Nat := 0x3C6EF372
def init3 : Nat := 0xA54FF53A
def init4 : Nat := 0x510E527F
def init5 : Nat := 0x9B05688C
def init6 : Nat := 0x1F83D9AB
def init7 : Nat := 0x5BE0CD19

/-- The Go array type `[8]uint32` of the field `H`. -/
structure H8 where
  h0 : Nat
  h1 : Nat
  h2 : Nat
  h3 : Nat
  h4 : Nat
  h5 : Nat
  h6 : Nat
  h7 : Nat
  deriving DecidableEq, Repr

/-- The words `H[0]`, ..., `H[7]` in index order. -/
def H8.toList (x : H8) : List Nat := [x.h0, x.h1, x.h2, x.h3, x.h4, x.h5, x.h6, x.h7]

/-- Sha256Digest represents the partial evaluation of a checksum.
`Block` is the array `[Chunk64]byte`, `Nx` a Go `int`, `Len` a `uint64`. -/
structure Sha256Digest where
  H : H8
  Block : List Nat
  Nx : Int
  Len : Nat
  deriving DecidableEq, Repr

/-- The zero value `var d Sha256Digest`. -/
def zeroDigest : Sha256Digest :=
  { H := ⟨0, 0, 0, 0, 0, 0, 0, 0⟩, Block := List.replicate Chunk64 0, Nx := 0, Len := 0 }

/-- The eight words inhabit the Go type `uint32`. -/
def H8.Valid (x : H8) : Prop := ∀ v ∈ x.toList, v < 2 ^ 32

instance (x : H8) : Decidable x.Valid := by unfold H8.Valid; infer_instance

/-- Every entry of a byte sequence is below 256. -/
def Bytes (p : List Nat) : Prop := ∀ b ∈ p, b < 256

instance (p : List Nat) : Decidable (Bytes p) := by unfold Bytes; infer_instance

/-- Reset Sha256Digest back to default. -/
def Reset (d : Sha256Digest) : Sha256Digest :=
  { d with
    H := ⟨init0, init1, init2, init3, init4, init5, init6, init7⟩
    Nx := 0
    Len := 0 }

/-! ## Dispatch -/

inductive blockfuncType where
  | blockfuncGeneric
  | blockfuncAvx512
  | blockfuncAvx2
  | blockfuncAvx
  | blockfuncSsse
  | blockfuncSha
  | blockfuncArm
  deriving DecidableEq, Repr

open blockfuncType

/-- The capability flags read by `init` (package-level booleans set elsewhere). -/
structure CpuFlags where
  sha : Bool
  ssse3 : Bool
  sse41 : Bool
  avx2 : Bool
  avx : Bool
  armSha : Bool
  deriving DecidableEq, Repr

/-- The package `init` function as a function of `runtime.GOARCH` and the flags: the
value it stores in `blockfunc`. -/
def init (goarch : String) (c : CpuFlags) : blockfuncType :=
  let is386bit := goarch == "386"
  let isARM := goarch == "arm"
  if is386bit || isARM then blockfuncGeneric
  else if c.sha && c.ssse3 && c.sse41 then blockfuncSha
  else if c.avx2 then blockfuncAvx2
  else if c.avx then blockfuncAvx
  else if c.ssse3 then blockfuncSsse
  else if c.armSha then blockfuncArm
  else blockfuncGeneric

/-! ## 32-bit arithmetic -/

/-- Addition of two `uint32` values. -/
def add32 (x y : Nat) : Nat := (x + y) % 2 ^ 32

/-- The shift `x << k` on `uint32`. -/
def shl32 (x k : Nat) : Nat := (x <<< k) % 2 ^ 32

/-- The shift `x >> k` on `uint32`. -/
def shr32 (x k : Nat) : Nat := x >>> k

/-- The complement `^x` on `uint32`. -/
def not32 (x : Nat) : Nat := x ^^^ 0xFFFFFFFF

def _K : List Nat := [
  0x428a2f98, 0x71374491, 0xb5c0fbcf, 0xe9b5dba5, 0x3956c25b, 0x59f111f1, 0x923f82a4, 0xab1c5ed5,
  0xd807aa98, 0x12835b01, 0x243185be, 0x550c7dc3, 0x72be5d74, 0x80deb1fe, 0x9bdc06a7, 0xc19bf174,
  0xe49b69c1, 0xefbe4786, 0x0fc19dc6, 0x240ca1cc, 0x2de92c6f, 0x4a7484aa, 0x5cb0a9dc, 0x76f988da,
  0x983e5152, 0xa831c66d, 0xb00327c8, 0xbf597fc7, 0xc6e00bf3, 0xd5a79147, 0x06ca6351, 0x14292967,
  0x27b70a85, 0x2e1b2138, 0x4d2c6dfc, 0x53380d13, 0x650a7354, 0x766a0abb, 0x81c2c92e, 0x92722c85,
  0xa2bfe8a1, 0xa81a664b, 0xc24b8b70, 0xc76c51a3, 0xd192e819, 0xd6990624, 0xf40e3585, 0x106aa070,
  0x19a4c116, 0x1e376c08, 0x2748774c, 0x34b0bcb5, 0x391c0cb3, 0x4ed8aa4a, 0x5b9cca4f, 0x682e6ff3,
  0x748f82ee, 0x78a5636f, 0x84c87814, 0x8cc70208, 0x90befffa, 0xa4506ceb, 0xbef9a3f7, 0xc67178f2]

/-! ## The generic block function -/

/-- The assignment `a[i] = v` on an array or slice; `none` when `i` is out of range. -/
def arrSet (a : List Nat) (i : Nat) (v : Nat) : Option (List Nat) :=
  if i < a.length then some (a.set i v) else none

/-- The working variables `a, b, c, d, e, f, g, h` of `blockGeneric`. -/
structure Vars where
  a : Nat
  b : Nat
  c : Nat
  d : Nat
  e : Nat
  f : Nat
  g : Nat
  h : Nat
  deriving DecidableEq, Repr

/-- Body of the first inner loop: `j := i * 4` and
`w[i] = uint32(p[j])<<24 | uint32(p[j+1])<<16 | uint32(p[j+2])<<8 | uint32(p[j+3])`. -/
def loadStep (p : List Nat) (w : List Nat) (i : Nat) : Option (List Nat) := do
  let j := i * 4
  let b0 ← p[j]?
  let b1 ← p[j + 1]?
  let b2 ← p[j + 2]?
  let b3 ← p[j + 3]?
  arrSet w i (shl32 b0 24 ||| shl32 b1 16 ||| shl32 b2 8 ||| b3)

/-- Body of the second inner loop (message schedule expansion). -/
def expandStep (w : List Nat) (i : Nat) : Option (List Nat) := do
  let v1 ← w[i - 2]?
  let t1 := (shr32 v1 17 ||| shl32 v1 (32 - 17)) ^^^ (shr32 v1 19 ||| shl32 v1 (32 - 19))
    ^^^ (shr32 v1 10)
  let v2 ← w[i - 15]?
  let t2 := (shr32 v2 7 ||| shl32 v2 (32 - 7)) ^^^ (shr32 v2 18 ||| shl32 v2 (32 - 18))
    ^^^ (shr32 v2 3)
  let x7 ← w[i - 7]?
  let x16 ← w[i - 16]?
  arrSet w i (add32 (add32 (add32 t1 x7) t2) x16)

/-- Body of the round loop. -/
def roundStep (w : List Nat) (s : Vars) (i : Nat) : Option Vars := do
  let k ← _K[i]?
  let wi ← w[i]?
  let t1 := add32 (add32 (add32 (add32 s.h
      ((shr32 s.e 6 ||| shl32 s.e (32 - 6)) ^^^ (shr32 s.e 11 ||| shl32 s.e (32 - 11))
        ^^^ (shr32 s.e 25 ||| shl32 s.e (32 - 25))))
      ((s.e &&& s.f) ^^^ (not32 s.e &&& s.g))) k) wi
  let t2 := add32
      ((shr32 s.a 2 ||| shl32 s.a (32 - 2)) ^^^ (shr32 s.a 13 ||| shl32 s.a (32 - 13))
        ^^^ (shr32 s.a 22 ||| shl32 s.a (32 - 22)))
      ((s.a &&& s.b) ^^^ (s.a &&& s.c) ^^^ (s.b &&& s.c))
  pure { h := s.g, g := s.f, f := s.e, e := add32 s.d t1, d := s.c, c := s.b, b := s.a,
         a := add32 t1 t2 }

/-- One pass through the body of the outer loop of `blockGeneric`: the schedule array
`w` and the running words `h0..h7` before, and after, the block at the head of `p`. -/
def blockGenericBody (w : List Nat) (h : H8) (p : List Nat) : Option (List Nat × H8) := do
  let w ← (List.range' 0 16).foldlM (loadStep p) w
  let w ← (List.range' 16 48).foldlM expandStep w
  let s ← (List.range' 0 64).foldlM (roundStep w)
    { a := h.h0, b := h.h1, c := h.h2, d := h.h3, e := h.h4, f := h.h5, g := h.h6, h := h.h7 }
  pure (w, ⟨add32 h.h0 s.a, add32 h.h1 s.b, add32 h.h2 s.c, add32 h.h3 s.d,
            add32 h.h4 s.e, add32 h.h5 s.f, add32 h.h6 s.g, add32 h.h7 s.h⟩)

/-- The loop `for len(p) >= Chunk64 { ...; p = p[Chunk64:] }`, with a bound on the number
of iterations; `none` when the bound is exhausted or an index is out of range. -/
def blockGenericLoop : Nat → List Nat → H8 → List Nat → Option H8
  | fuel, w, h, p =>
    if Chunk64 ≤ p.length then
      match fuel with
      | 0 => none
      | fuel + 1 =>
        match blockGenericBody w h p with
        | none => none
        | some (w, h) => blockGenericLoop fuel w h (p.drop Chunk64)
    else some h

/-- The function `blockGeneric(dig, p)`: the digest it leaves behind. -/
def blockGeneric (dig : Sha256Digest) (p : List Nat) : Option Sha256Digest := do
  let h ← blockGenericLoop (p.length / Chunk64) (List.replicate 64 0) dig.H p
  pure { dig with H := h }

/-! ## Backends other than the generic one (`sha256block_other.go`) and `block` -/

/-- The function `blockAvx2Go` of `sha256block_other.go`: an empty body. -/
def blockAvx2Go (dig : Sha256Digest) (_p : List Nat) : Option Sha256Digest := some dig

/-- The function `blockAvxGo` of `sha256block_other.go`: an empty body. -/
def blockAvxGo (dig : Sha256Digest) (_p : List Nat) : Option Sha256Digest := some dig

/-- The function `blockSsseGo` of `sha256block_other.go`: an empty body. -/
def blockSsseGo (dig : Sha256Digest) (_p : List Nat) : Option Sha256Digest := some dig

/-- The function `blockShaGo` of `sha256block_other.go`: an empty body. -/
def blockShaGo (dig : Sha256Digest) (_p : List Nat) : Option Sha256Digest := some dig

/-- The function `blockArmGo` of `sha256block_other.go`: an empty body. -/
def blockArmGo (dig : Sha256Digest) (_p : List Nat) : Option Sha256Digest := some dig

/-- The function `block(dig, p)` under the value `bf` of the variable `blockfunc`. -/
def block (bf : blockfuncType) (dig : Sha256Digest) (p : List Nat) : Option Sha256Digest :=
  if bf = blockfuncSha then blockShaGo dig p
  else if bf = blockfuncAvx2 then blockAvx2Go dig p
  else if bf = blockfuncAvx then blockAvxGo dig p
  else if bf = blockfuncSsse then blockSsseGo dig p
  else if bf = blockfuncArm then blockArmGo dig p
  else if bf = blockfuncGeneric then blockGeneric dig p
  else some dig

/-! ## Slices -/

/-- The statement `n := copy(a[lo:], src)` for an array `a`: the array after the copy and
`n`; `none` when the slice expression `a[lo:]` is out of range. -/
def copyAt (a : List Nat) (lo : Int) (src : List Nat) : Option (List Nat × Nat) :=
  if 0 ≤ lo ∧ lo ≤ a.length then
    let n := min (a.length - lo.toNat) src.length
    some (a.take lo.toNat ++ src.take n ++ a.drop (lo.toNat + n), n)
  else none

/-- The slice expression `a[:hi]` for a Go `int` bound. -/
def sliceTo (a : List Nat) (hi : Int) : Option (List Nat) :=
  if 0 ≤ hi ∧ hi ≤ a.length then some (a.take hi.toNat) else none

/-- The slice expression `a[lo:]`. -/
def sliceFrom (a : List Nat) (lo : Nat) : Option (List Nat) :=
  if lo ≤ a.length then some (a.drop lo) else none

/-- The slice expression `a[lo:hi]`. -/
def slice (a : List Nat) (lo hi : Nat) : Option (List Nat) :=
  if lo ≤ hi ∧ hi ≤ a.length then some ((a.take hi).drop lo) else none

/-- The assignment `a[i] = v` for a Go `int` index. -/
def arrSetInt (a : List Nat) (i : Int) (v : Nat) : Option (List Nat) :=
  if 0 ≤ i then arrSet a i.toNat v else none

/-- An in-place update `f` applied through the slice `a[lo:hi]` of the array `a`. -/
def onSlice (a : List Nat) (lo hi : Nat) (f : List Nat → Option (List Nat)) :
    Option (List Nat) := do
  let s ← slice a lo hi
  let s ← f s
  pure (a.take lo ++ s ++ a.drop hi)

/-- The operator `x &^ y` (bit clear) on non-negative integers. -/
def bitClear (x y : Nat) : Nat := x ^^^ (x &&& y)

/-- The library function `binary.BigEndian.PutUint64(b, v)`. -/
def PutUint64 (v : Nat) (b : List Nat) : Option (List Nat) :=
  if 7 < b.length then
    some ([(v >>> 56) % 256, (v >>> 48) % 256, (v >>> 40) % 256, (v >>> 32) % 256,
           (v >>> 24) % 256, (v >>> 16) % 256, (v >>> 8) % 256, v % 256] ++ b.drop 8)
  else none

/-- The library function `binary.BigEndian.PutUint32(b, v)`. -/
def PutUint32 (v : Nat) (b : List Nat) : Option (List Nat) :=
  if 3 < b.length then
    some ([(v >>> 24) % 256, (v >>> 16) % 256, (v >>> 8) % 256, v % 256] ++ b.drop 4)
  else none

/-! ## Write, Sum, CheckSum and the one-shot helpers -/

/-- First statement group of `Write`: `if d.Nx > 0 { ... }`.  Returns the digest and the
remaining `p`. -/
def writeHead (bf : blockfuncType) (d : Sha256Digest) (p : List Nat) :
    Option (Sha256Digest × List Nat) :=
  if 0 < d.Nx then
    (copyAt d.Block d.Nx p).bind fun r =>
      let n := r.2
      let d1 : Sha256Digest := { d with Block := r.1, Nx := d.Nx + (n : Int) }
      (if d1.Nx = (Chunk64 : Int) then
        (block bf d1 d1.Block).bind fun d2 => some { d2 with Nx := 0 }
       else some d1).bind fun d3 =>
      (sliceFrom p n).bind fun p1 => some (d3, p1)
  else some (d, p)

/-- Second statement group of `Write`: `if len(p) >= Chunk64 { ... }`. -/
def writeBlocks (bf : blockfuncType) (d : Sha256Digest) (p : List Nat) :
    Option (Sha256Digest × List Nat) :=
  if Chunk64 ≤ p.length then
    let n := bitClear p.length (Chunk64 - 1)
    (slice p 0 n).bind fun q =>
    (block bf d q).bind fun d1 =>
    (sliceFrom p n).bind fun p1 => some (d1, p1)
  else some (d, p)

/-- Third statement group of `Write`: `if len(p) > 0 { d.Nx = copy(d.Block[:], p) }`. -/
def writeTail (d : Sha256Digest) (p : List Nat) : Option Sha256Digest :=
  if 0 < p.length then
    (copyAt d.Block 0 p).bind fun r => some { d with Block := r.1, Nx := (r.2 : Int) }
  else some d

/-- Write to Sha256Digest: the digest afterwards, `nn`, and `err` (`none` is `nil`).
The outer `none` is a run-time panic. -/
def Write (bf : blockfuncType) (d : Sha256Digest) (p : List Nat) :
    Option (Sha256Digest × Int × Option String) :=
  let nn : Int := p.length
  let d0 : Sha256Digest := { d with Len := (d.Len + p.length) % 2 ^ 64 }
  (writeHead bf d0 p).bind fun r1 =>
  (writeBlocks bf r1.1 r1.2).bind fun r2 =>
  (writeTail r2.1 r2.2).bind fun d3 =>
  some (d3, nn, none)

/-- The padding block built at the start of `CheckSum`: `var k [64]byte`,
`copy(k[:], d.Block[:n])`, `k[n] = 0x80`. -/
def padStart (d : Sha256Digest) : Option (List Nat) :=
  let n := d.Nx
  let k := List.replicate 64 0
  (sliceTo d.Block n).bind fun src =>
  (copyAt k 0 src).bind fun r =>
  arrSetInt r.1 n 0x80

/-- The statement group `if n >= 56 { block(d, k[:]); k[0] = 0; ...; k[63] = 0 }`. -/
def padSpill (bf : blockfuncType) (d : Sha256Digest) (k : List Nat) :
    Option (Sha256Digest × List Nat) :=
  if 56 ≤ d.Nx then
    (block bf d k).bind fun d1 =>
    ((List.range' 0 64).foldlM (fun k i => arrSet k i 0) k).bind fun k1 => some (d1, k1)
  else some (d, k)

/-- The eight `binary.BigEndian.PutUint32(digest[i*4:i*4+4], d.H[i])` statements. -/
def putDigest (h : H8) : Option (List Nat) :=
  (onSlice (List.replicate Size 0) (0 * 4) (0 * 4 + 4) (PutUint32 h.h0)).bind fun g =>
  (onSlice g (1 * 4) (1 * 4 + 4) (PutUint32 h.h1)).bind fun g =>
  (onSlice g (2 * 4) (2 * 4 + 4) (PutUint32 h.h2)).bind fun g =>
  (onSlice g (3 * 4) (3 * 4 + 4) (PutUint32 h.h3)).bind fun g =>
  (onSlice g (4 * 4) (4 * 4 + 4) (PutUint32 h.h4)).bind fun g =>
  (onSlice g (5 * 4) (5 * 4 + 4) (PutUint32 h.h5)).bind fun g =>
  (onSlice g (6 * 4) (6 * 4 + 4) (PutUint32 h.h6)).bind fun g =>
  onSlice g (7 * 4) (7 * 4 + 4) (PutUint32 h.h7)

/-- Intermediate checksum function: the digest afterwards and the 32 bytes returned. -/
def CheckSum (bf : blockfuncType) (d : Sha256Digest) : Option (Sha256Digest × List Nat) :=
  (padStart d).bind fun k =>
  (padSpill bf d k).bind fun r =>
  (onSlice r.2 56 64 (PutUint64 ((r.1.Len <<< 3) % 2 ^ 64))).bind fun k1 =>
  (block bf r.1 k1).bind fun d1 =>
  (putDigest d1.H).bind fun digest => some (d1, digest)

/-- Return sha256 sum in bytes: the receiver afterwards and the returned slice.  The
checksum runs on the copy `d0`. -/
def Sum (bf : blockfuncType) (d : Sha256Digest) (inp : List Nat) :
    Option (Sha256Digest × List Nat) :=
  let d0 := d
  (CheckSum bf d0).bind fun r => some (d, inp ++ r.2)

/-- Sum256 - single caller sha256 helper. -/
def Sum256 (bf : blockfuncType) (data : List Nat) : Option (List Nat) :=
  let d := Reset zeroDigest
  (Write bf d data).bind fun r =>
  (CheckSum bf r.1).bind fun c => some c.2

/-- The helper `Sum256Reuse(d, data)`. -/
def Sum256Reuse (bf : blockfuncType) (d : Sha256Digest) (data : List Nat) :
    Option (List Nat) :=
  let d := Reset d
  (Write bf d data).bind fun r =>
  (CheckSum bf r.1).bind fun c => some c.2

/-! ## Total functions derived from the code, used to state the properties -/

/-- The words `h0..h7` after one pass of the outer loop body of `blockGeneric` over the
block at the head of `blk`, starting from a fresh schedule array (unchanged if the pass
panics). -/
def compress (h : H8) (blk : List Nat) : H8 :=
  match blockGenericBody (List.replicate 64 0) h blk with
  | some r => r.2
  | none => h

/-- The consecutive full 64-byte blocks of `p`, first to last; the trailing
`len(p) mod 64` bytes are dropped. -/
def fullBlocks (p : List Nat) : List (List Nat) :=
  (List.range (p.length / 64)).map fun i => (p.drop (64 * i)).take 64

/-- The single-block compression applied to the full blocks of `p` in order, each
output being the next input. -/
def compressAll (h : H8) (p : List Nat) : H8 := (fullBlocks p).foldl compress h

/-- Big-endian bytes of a 32-bit word, most significant first. -/
def be32 (v : Nat) : List Nat := [v / 2 ^ 24 % 256, v / 2 ^ 16 % 256, v / 2 ^ 8 % 256, v % 256]

/-- Big-endian bytes of a 64-bit value, most significant first. -/
def be64 (v : Nat) : List Nat :=
  [v / 2 ^ 56 % 256, v / 2 ^ 48 % 256, v / 2 ^ 40 % 256, v / 2 ^ 32 % 256,
   v / 2 ^ 24 % 256, v / 2 ^ 16 % 256, v / 2 ^ 8 % 256, v % 256]

/-- The 32 bytes of the eight words, big-endian, word 0 first. -/
def digestBytes (h : H8) : List Nat :=
  be32 h.h0 ++ be32 h.h1 ++ be32 h.h2 ++ be32 h.h3 ++ be32 h.h4 ++ be32 h.h5 ++ be32 h.h6
    ++ be32 h.h7

/-! ## SHA-256 as the specification describes it -/

/-- Rotation of a 32-bit word to the right by `k` bits: the low `k` bits move to the
top. -/
def rotr (x k : Nat) : Nat := x / 2 ^ k + (x % 2 ^ k) * 2 ^ (32 - k)

def sigma0 (x : Nat) : Nat := rotr x 7 ^^^ rotr x 18 ^^^ (x / 2 ^ 3)

def sigma1 (x : Nat) : Nat := rotr x 17 ^^^ rotr x 19 ^^^ (x / 2 ^ 10)

def bigSigma0 (x : Nat) : Nat := rotr x 2 ^^^ rotr x 13 ^^^ rotr x 22

def bigSigma1 (x : Nat) : Nat := rotr x 6 ^^^ rotr x 11 ^^^ rotr x 25

/-- The choice function `(e and f) xor (not e and g)` on 32-bit words. -/
def choose (e f g : Nat) : Nat := (e &&& f) ^^^ ((2 ^ 32 - 1 - e) &&& g)

def majority (a b c : Nat) : Nat := (a &&& b) ^^^ (a &&& c) ^^^ (b &&& c)

/-- The `i`-th big-endian 32-bit word of a block. -/
def beWord (p : List Nat) (i : Nat) : Nat :=
  p.getD (4 * i) 0 * 2 ^ 24 + p.getD (4 * i + 1) 0 * 2 ^ 16 + p.getD (4 * i + 2) 0 * 2 ^ 8
    + p.getD (4 * i + 3) 0

/-- The message schedule `w[0 .. 16 + n)` of a block: the 16 big-endian words followed
by `n` expanded words `w[i] = sigma1(w[i-2]) + w[i-7] + sigma0(w[i-15]) + w[i-16]`. -/
def specSchedule (p : List Nat) : Nat → List Nat
  | 0 => (List.range 16).map (beWord p)
  | n + 1 =>
    let w := specSchedule p n
    let i := 16 + n
    w ++ [(sigma1 (w.getD (i - 2) 0) + w.getD (i - 7) 0 + sigma0 (w.getD (i - 15) 0)
            + w.getD (i - 16) 0) % 2 ^ 32]

/-- One round with round constant `k` and schedule word `wi`. -/
def specRound (s : Vars) (k wi : Nat) : Vars :=
  let T1 := (s.h + bigSigma1 s.e + choose s.e s.f s.g + k + wi) % 2 ^ 32
  let T2 := (bigSigma0 s.a + majority s.a s.b s.c) % 2 ^ 32
  { a := (T1 + T2) % 2 ^ 32, b := s.a, c := s.b, d := s.c, e := (s.d + T1) % 2 ^ 32,
    f := s.e, g := s.f, h := s.g }

/-- The SHA-256 compression of the state `h` with the 64-byte block `p`. -/
def specCompress (h : H8) (p : List Nat) : H8 :=
  let w := specSchedule p 48
  let s := (List.range 64).foldl (fun s i => specRound s (_K.getD i 0) (w.getD i 0))
    { a := h.h0, b := h.h1, c := h.h2, d := h.h3, e := h.h4, f := h.h5, g := h.h6, h := h.h7 }
  ⟨(h.h0 + s.a) % 2 ^ 32, (h.h1 + s.b) % 2 ^ 32, (h.h2 + s.c) % 2 ^ 32, (h.h3 + s.d) % 2 ^ 32,
   (h.h4 + s.e) % 2 ^ 32, (h.h5 + s.f) % 2 ^ 32, (h.h6 + s.g) % 2 ^ 32, (h.h7 + s.h) % 2 ^ 32⟩

/-- The padded message: the data, one `0x80` byte, the fewest zero bytes that bring the
length to 56 modulo 64, and the bit length `8 * len(data)` as 8 big-endian bytes. -/
def specPad (data : List Nat) : List Nat :=
  data ++ [0x80] ++ List.replicate ((119 - data.length % 64) % 64) 0 ++ be64 (8 * data.length)

/-- The eight initial hash values. -/
def specInit : H8 := ⟨init0, init1, init2, init3, init4, init5, init6, init7⟩

/-- The SHA-256 digest of the standard: compression folded over the 64-byte blocks of the
padded message from the initial values, serialised big-endian. -/
def specSha256 (data : List Nat) : List Nat :=
  digestBytes ((fullBlocks (specPad data)).foldl specCompress specInit)

/-! ## Auxiliary definitions used in the proofs -/

/-- The word that `loadStep` stores in `w[i]`, with defaulted reads. -/
def wordAt (p : List Nat) (i : Nat) : Nat :=
  shl32 (p.getD (i * 4) 0) 24 ||| shl32 (p.getD (i * 4 + 1) 0) 16
    ||| shl32 (p.getD (i * 4 + 2) 0) 8 ||| p.getD (i * 4 + 3) 0

/-- The word that `expandStep` stores in `w[i]`, with defaulted reads. -/
def expandWord (w : List Nat) (i : Nat) : Nat :=
  let v1 := w.getD (i - 2) 0
  let t1 := (shr32 v1 17 ||| shl32 v1 (32 - 17)) ^^^ (shr32 v1 19 ||| shl32 v1 (32 - 19))
    ^^^ (shr32 v1 10)
  let v2 := w.getD (i - 15) 0
  let t2 := (shr32 v2 7 ||| shl32 v2 (32 - 7)) ^^^ (shr32 v2 18 ||| shl32 v2 (32 - 18))
    ^^^ (shr32 v2 3)
  add32 (add32 (add32 t1 (w.getD (i - 7) 0)) t2) (w.getD (i - 16) 0)

/-- The entries `w[0 .. 16 + n)` after the first loop and `n` passes of the second. -/
def schedAux (p : List Nat) : Nat → List Nat
  | 0 => (List.range 16).map (wordAt p)
  | n + 1 => schedAux p n ++ [expandWord (schedAux p n) (16 + n)]

/-- Total mirror of `roundStep`. -/
def roundAux (w : List Nat) (s : Vars) (i : Nat) : Vars :=
  let k := _K.getD i 0
  let wi := w.getD i 0
  let t1 := add32 (add32 (add32 (add32 s.h
      ((shr32 s.e 6 ||| shl32 s.e (32 - 6)) ^^^ (shr32 s.e 11 ||| shl32 s.e (32 - 11))
        ^^^ (shr32 s.e 25 ||| shl32 s.e (32 - 25))))
      ((s.e &&& s.f) ^^^ (not32 s.e &&& s.g))) k) wi
  let t2 := add32
      ((shr32 s.a 2 ||| shl32 s.a (32 - 2)) ^^^ (shr32 s.a 13 ||| shl32 s.a (32 - 13))
        ^^^ (shr32 s.a 22 ||| shl32 s.a (32 - 22)))
      ((s.a &&& s.b) ^^^ (s.a &&& s.c) ^^^ (s.b &&& s.c))
  { h := s.g, g := s.f, f := s.e, e := add32 s.d t1, d := s.c, c := s.b, b := s.a,
    a := add32 t1 t2 }

/-- Total mirror of `blockGenericBody`. -/
def compressAux (h : H8) (p : List Nat) : H8 :=
  let w := schedAux p 48
  let s := (List.range' 0 64).foldl (roundAux w)
    { a := h.h0, b := h.h1, c := h.h2, d := h.h3, e := h.h4, f := h.h5, g := h.h6, h := h.h7 }
  ⟨add32 h.h0 s.a, add32 h.h1 s.b, add32 h.h2 s.c, add32 h.h3 s.d,
   add32 h.h4 s.e, add32 h.h5 s.f, add32 h.h6 s.g, add32 h.h7 s.h⟩

/-- The candidate backends in their fixed preference order, each with the capability
predicate it needs. -/
def candidates (c : CpuFlags) : List (blockfuncType × Bool) :=
  [(blockfuncSha, c.sha && c.ssse3 && c.sse41), (blockfuncAvx2, c.avx2), (blockfuncAvx, c.avx),
   (blockfuncSsse, c.ssse3), (blockfuncArm, c.armSha)]

/-- The selection policy in words: generic on the architectures "386" and "arm", else the
first candidate whose predicate holds, else generic. -/
def specDispatch (goarch : String) (c : CpuFlags) : blockfuncType :=
  if goarch = "386" ∨ goarch = "arm" then blockfuncGeneric
  else match (candidates c).find? (fun x => x.2) with
    | some x => x.1
    | none => blockfuncGeneric

/-- The first 64 primes. -/
def primes64 : List Nat := [
  2, 3, 5, 7, 11, 13, 17, 19, 23, 29, 31, 37, 41, 43, 47, 53,
  59, 61, 67, 71, 73, 79, 83, 89, 97, 101, 103, 107, 109, 113, 127, 131,
  137, 139, 149, 151, 157, 163, 167, 173, 179, 181, 191, 193, 197, 199, 211, 223,
  227, 229, 233, 239, 241, 251, 257, 263, 269, 271, 277, 281, 283, 293, 307, 311]

/-- Integer `k`-th root by bisection on the low `bits` bits: the greatest `r < 2^bits`
with `r^k ≤ n`. -/
def iroot (k n : Nat) : Nat → Nat
  | 0 => 0
  | b + 1 =>
    let r := iroot k (n / 2 ^ k) b
    if (2 * r + 1) ^ k ≤ n then 2 * r + 1 else 2 * r

/-- The words left in `H` by `block(dig, p)` under `blockfunc = bf`: the generic
compression of the full blocks of `p`, or no change for the other values. -/
def hashAll (bf : blockfuncType) (h : H8) (p : List Nat) : H8 :=
  if bf = blockfuncGeneric then compressAll h p else h

/-- The state `e1` relates to `e` and the bytes `s` as a `Write` of `s` into the empty
pending buffer of `e` does. -/
def Absorbed (bf : blockfuncType) (h : H8) (s : List Nat) (e1 : Sha256Digest) : Prop :=
  e1.H = hashAll bf h s ∧ e1.Nx = ((s.length % 64 : Nat) : Int) ∧
    e1.Block.take (s.length % 64) = s.drop (s.length - s.length % 64) ∧ e1.Block.length = 64

/-- Post-state of `Write(p)` described from the pre-state. -/
def WritePost (bf : blockfuncType) (d : Sha256Digest) (p : List Nat) (d1 : Sha256Digest) :
    Prop :=
  Absorbed bf d.H (d.Block.take d.Nx.toNat ++ p) d1 ∧ d1.Len = (d.Len + p.length) % 2 ^ 64

/-- The padding that `CheckSum` compresses after the `pend` pending bytes: the pending
bytes, `0x80`, zeros up to the last 8 bytes of the block (or of the next block when fewer
than 8 bytes are left), and the length field for `Len = len`. -/
def padBlocks (pend : List Nat) (len : Nat) : List Nat :=
  if pend.length ≤ 55 then
    pend ++ [0x80] ++ List.replicate (55 - pend.length) 0 ++ be64 ((len <<< 3) % 2 ^ 64)
  else
    (pend ++ [0x80] ++ List.replicate (63 - pend.length) 0)
      ++ (List.replicate 56 0 ++ be64 ((len <<< 3) % 2 ^ 64))

/-- The digest `d` has absorbed exactly the bytes `X` since its last `Reset`. -/
def Tracks (bf : blockfuncType) (X : List Nat) (d : Sha256Digest) : Prop :=
  Absorbed bf specInit X d ∧ d.Len = X.length % 2 ^ 64

/-- The words that `CheckSum` leaves in `H` after the bytes `X` were absorbed since the
last `Reset`. -/
def finalH (bf : blockfuncType) (X : List Nat) : H8 :=
  hashAll bf (hashAll bf specInit X)
    (padBlocks (X.drop (X.length - X.length % 64)) (X.length % 2 ^ 64))

/-- A call on a digest: `Write(p)`, `Sum(in)` or `Reset()`. -/
inductive Op where
  | write (p : List Nat)
  | sum (inp : List Nat)
  | reset
  deriving DecidableEq, Repr

/-- The digest after one call (`none` is a panic). -/
def step (bf : blockfuncType) (d : Sha256Digest) : Op → Option Sha256Digest
  | Op.write p => (Write bf d p).map fun r => r.1
  | Op.sum inp => (Sum bf d inp).map fun r => r.1
  | Op.reset => some (Reset d)

/-- The digest after a sequence of calls. -/
def run (bf : blockfuncType) (d : Sha256Digest) (ops : List Op) : Option Sha256Digest :=
  ops.foldlM (step bf) d

/-- The bytes written since the last `Reset`, starting from `X`. -/
def writtenFrom (X : List Nat) : List Op → List Nat
  | [] => X
  | Op.write p :: ops => writtenFrom (X ++ p) ops
  | Op.sum _ :: ops => writtenFrom X ops
  | Op.reset :: ops => writtenFrom [] ops

/-- The pending bytes `Block[0..Nx)` of `d` followed by the bytes `p`. -/
def pendingWith (d : Sha256Digest) (p : List Nat) : List Nat := d.Block.take d.Nx.toNat ++ p

/-- The bytes of an ASCII text. -/
def asciiBytes (s : String) : List Nat := s.toList.map Char.toNat

/-- The published digest `e3b0c442...7852b855` of the empty input. -/
def digestEmpty : List Nat :=
    [0xe3, 0xb0, 0xc4, 0x42, 0x98, 0xfc, 0x1c, 0x14, 0x9a, 0xfb, 0xf4, 0xc8, 0x99, 0x6f, 0xb9, 0x24,
     0x27, 0xae, 0x41, 0xe4, 0x64, 0x9b, 0x93, 0x4c, 0xa4, 0x95, 0x99, 0x1b, 0x78, 0x52, 0xb8, 0x55]

/-- The published digest `ba7816bf...f20015ad` of "abc". -/
def digestAbc : List Nat :=
    [0xba, 0x78, 0x16, 0xbf, 0x8f, 0x01, 0xcf, 0xea, 0x41, 0x41, 0x40, 0xde, 0x5d, 0xae, 0x22, 0x23,
     0xb0, 0x03, 0x61, 0xa3, 0x96, 0x17, 0x7a, 0x9c, 0xb4, 0x10, 0xff, 0x61, 0xf2, 0x00, 0x15, 0xad]

/-- The published digest `cf5b16a7...7afee9d1` of the 112-byte test message. -/
def digest112 : List Nat :=
    [0xcf, 0x5b, 0x16, 0xa7, 0x78, 0xaf, 0x83, 0x80, 0x03, 0x6c, 0xe5, 0x9e, 0x7b, 0x04, 0x92, 0x37,
     0x0b, 0x24, 0x9b, 0x11, 0xe8, 0xf0, 0x7a, 0x51, 0xaf, 0xac, 0x45, 0x03, 0x7a, 0xfe, 0xe9, 0xd1]

/-! # Lemmas and theorems -/

/-! ## The loops of `blockGeneric` never panic and compute the total mirror -/

theorem getElem?_eq_some_getD (l : List Nat) (i : Nat) (h : i < l.length) :
    l[i]? = some (l.getD i 0) := by
  simp [List.getD, List.getElem?_eq_getElem h]

theorem set_append_drop (pre w : List Nat) (n v : Nat) (hn : pre.length = n)
    (hw : n < w.length) :
    (pre ++ w.drop n).set n v = (pre ++ [v]) ++ w.drop (n + 1) := by
  subst hn
  rw [List.set_append]
  simp only [lt_self_iff_false, if_false, Nat.sub_self]
  rw [List.drop_eq_getElem_cons hw]
  simp only [List.set_cons_zero, List.append_assoc, List.singleton_append]

theorem loadStep_eq (p w : List Nat) (i : Nat) (hp : i * 4 + 3 < p.length)
    (hw : i < w.length) : loadStep p w i = some (w.set i (wordAt p i)) := by
  have h0 := getElem?_eq_some_getD p (i * 4) (by omega)
  have h1 := getElem?_eq_some_getD p (i * 4 + 1) (by omega)
  have h2 := getElem?_eq_some_getD p (i * 4 + 2) (by omega)
  have h3 := getElem?_eq_some_getD p (i * 4 + 3) hp
  simp only [loadStep, wordAt, arrSet, h0, h1, h2, h3, hw, if_true, Option.bind_eq_bind,
    Option.some_bind]

theorem loadLoop_eq (p w : List Nat) (hp : 64 ≤ p.length) (hw : w.length = 64) :
    ∀ n, n ≤ 16 → (List.range' 0 n).foldlM (loadStep p) w
      = some ((List.range n).map (wordAt p) ++ w.drop n) := by
  intro n
  induction n with
  | zero => intro _; simp
  | succ n ih =>
    intro hn
    rw [List.range'_concat, List.foldlM_append, ih (by omega)]
    simp only [Option.bind_eq_bind, Option.some_bind, List.foldlM_cons, List.foldlM_nil,
      Nat.zero_add, Nat.one_mul]
    rw [loadStep_eq p _ n (by omega) (by simp; omega)]
    simp only [Option.some_bind, Option.bind_some]
    rw [set_append_drop _ w n _ (by simp) (by omega)]
    simp [List.range_succ]

theorem schedAux_length (p : List Nat) (n : Nat) : (schedAux p n).length = 16 + n := by
  induction n with
  | zero => simp [schedAux]
  | succ n ih => simp [schedAux, ih]; omega

theorem expandStep_eq (w : List Nat) (i : Nat) (h16 : 16 ≤ i) (hw : i < w.length) :
    expandStep w i = some (w.set i (expandWord w i)) := by
  have h0 := getElem?_eq_some_getD w (i - 2) (by omega)
  have h1 := getElem?_eq_some_getD w (i - 15) (by omega)
  have h2 := getElem?_eq_some_getD w (i - 7) (by omega)
  have h3 := getElem?_eq_some_getD w (i - 16) (by omega)
  simp only [expandStep, expandWord, arrSet, h0, h1, h2, h3, hw, if_true, Option.bind_eq_bind,
    Option.some_bind]

theorem getD_append_left (pre rest : List Nat) (j : Nat) (h : j < pre.length) :
    (pre ++ rest).getD j 0 = pre.getD j 0 := by
  simp [List.getD, List.getElem?_append_left h]

theorem expandWord_append (pre rest : List Nat) (i : Nat) (h16 : 16 ≤ i)
    (hi : pre.length = i) : expandWord (pre ++ rest) i = expandWord pre i := by
  simp only [expandWord]
  rw [getD_append_left pre rest (i - 2) (by omega), getD_append_left pre rest (i - 15) (by omega),
    getD_append_left pre rest (i - 7) (by omega), getD_append_left pre rest (i - 16) (by omega)]

theorem expandLoop_eq (p w : List Nat) (hw : w.length = 64) :
    ∀ n, n ≤ 48 → (List.range' 16 n).foldlM expandStep (schedAux p 0 ++ w.drop 16)
      = some (schedAux p n ++ w.drop (16 + n)) := by
  intro n
  induction n with
  | zero => intro _; simp
  | succ n ih =>
    intro hn
    rw [List.range'_concat, List.foldlM_append, ih (by omega)]
    simp only [Option.bind_eq_bind, Option.some_bind, List.foldlM_cons, List.foldlM_nil,
      Nat.one_mul]
    have hl := schedAux_length p n
    rw [expandStep_eq _ (16 + n) (by omega) (by simp [hl]; omega)]
    simp only [Option.some_bind, Option.bind_some]
    rw [expandWord_append _ _ (16 + n) (by omega) hl]
    rw [set_append_drop _ w (16 + n) _ hl (by omega)]
    simp [schedAux, Nat.add_assoc]

theorem K_length : _K.length = 64 := by decide

theorem roundStep_eq (w : List Nat) (s : Vars) (i : Nat) (hi : i < 64) (hw : w.length = 64) :
    roundStep w s i = some (roundAux w s i) := by
  have h0 := getElem?_eq_some_getD _K i (by rw [K_length]; exact hi)
  have h1 := getElem?_eq_some_getD w i (by omega)
  simp only [roundStep, roundAux, h0, h1, Option.bind_eq_bind, Option.some_bind, Option.pure_def]

theorem foldlM_eq_foldl {σ : Type} (f : σ → Nat → Option σ) (g : σ → Nat → σ) (l : List Nat)
    (h : ∀ i ∈ l, ∀ s, f s i = some (g s i)) (s : σ) :
    l.foldlM f s = some (l.foldl g s) := by
  induction l generalizing s with
  | nil => rfl
  | cons a l ih =>
    simp only [List.foldlM_cons, List.foldl_cons, h a (List.mem_cons_self _ _) s,
      Option.bind_eq_bind, Option.some_bind]
    exact ih (fun i hi s => h i (List.mem_cons_of_mem _ hi) s) _

theorem blockGenericBody_eq (w : List Nat) (h : H8) (p : List Nat) (hw : w.length = 64)
    (hp : 64 ≤ p.length) :
    blockGenericBody w h p = some (schedAux p 48, compressAux h p) := by
  have h1 := loadLoop_eq p w hp hw 16 (le_refl _)
  have h2 := expandLoop_eq p w hw 48 (le_refl _)
  have h3 : w.drop (16 + 48) = [] := by simp [hw]
  rw [h3, List.append_nil] at h2
  have hl : (schedAux p 48).length = 64 := schedAux_length p 48
  have h4 := fun s => foldlM_eq_foldl (roundStep (schedAux p 48)) (roundAux (schedAux p 48))
    (List.range' 0 64) (fun i hi s => roundStep_eq _ s i (by simp at hi; omega) hl) s
  simp only [blockGenericBody, h1, Option.bind_eq_bind, Option.some_bind]
  have h5 : List.map (wordAt p) (List.range 16) = schedAux p 0 := rfl
  rw [h5, h2]
  simp only [Option.some_bind, h4, Option.pure_def, compressAux]

theorem getD_take (p : List Nat) (j n : Nat) (h : j < n) :
    (p.take n).getD j 0 = p.getD j 0 := by
  simp [List.getD, List.getElem?_take, h]

theorem wordAt_take (p : List Nat) (i : Nat) (h : i < 16) :
    wordAt (p.take 64) i = wordAt p i := by
  simp only [wordAt]
  rw [getD_take p _ 64 (by omega), getD_take p _ 64 (by omega), getD_take p _ 64 (by omega),
    getD_take p _ 64 (by omega)]

theorem schedAux_take (p : List Nat) (n : Nat) : schedAux (p.take 64) n = schedAux p n := by
  induction n with
  | zero =>
    simp only [schedAux]
    apply List.map_congr_left
    intro i hi
    exact wordAt_take p i (by simpa using hi)
  | succ n ih => simp only [schedAux, ih]

theorem compressAux_take (h : H8) (p : List Nat) : compressAux h (p.take 64) = compressAux h p := by
  simp only [compressAux, schedAux_take]

theorem compress_eq (h : H8) (p : List Nat) (hp : 64 ≤ p.length) :
    compress h p = compressAux h p := by
  simp only [compress, blockGenericBody_eq _ h p (List.length_replicate _ _) hp]

theorem compress_take (h : H8) (p : List Nat) (hp : 64 ≤ p.length) :
    compress h (p.take 64) = compress h p := by
  rw [compress_eq h p hp, compress_eq h (p.take 64) (by simp; omega), compressAux_take]

theorem fullBlocks_of_lt (p : List Nat) (hp : p.length < 64) : fullBlocks p = [] := by
  simp [fullBlocks, Nat.div_eq_of_lt hp]

theorem fullBlocks_of_le (p : List Nat) (hp : 64 ≤ p.length) :
    fullBlocks p = p.take 64 :: fullBlocks (p.drop 64) := by
  have h1 : p.length / 64 = (p.drop 64).length / 64 + 1 := by
    rw [List.length_drop]; omega
  simp only [fullBlocks, h1, List.range_succ_eq_map, List.map_cons, List.map_map, Nat.mul_zero,
    List.drop_zero]
  congr 1
  apply List.map_congr_left
  intro i _
  simp only [Function.comp, List.drop_drop]
  congr 2
  omega

theorem compressAll_of_lt (h : H8) (p : List Nat) (hp : p.length < 64) : compressAll h p = h := by
  simp [compressAll, fullBlocks_of_lt p hp]

theorem compressAll_of_le (h : H8) (p : List Nat) (hp : 64 ≤ p.length) :
    compressAll h p = compressAll (compress h p) (p.drop 64) := by
  simp [compressAll, fullBlocks_of_le p hp, compress_take h p hp]

theorem blockGenericLoop_eq (fuel : Nat) : ∀ (w : List Nat) (h : H8) (p : List Nat),
    w.length = 64 → p.length / 64 ≤ fuel →
    blockGenericLoop fuel w h p = some (compressAll h p) := by
  induction fuel with
  | zero =>
    intro w h p _ hf
    have hp : p.length < 64 := by omega
    unfold blockGenericLoop
    simp [Chunk64, BlockSize64, compressAll_of_lt h p hp, hp]
  | succ fuel ih =>
    intro w h p hw hf
    unfold blockGenericLoop
    by_cases hp : 64 ≤ p.length
    · simp only [Chunk64, BlockSize64, hp, if_true, blockGenericBody_eq w h p hw hp]
      rw [ih _ _ _ (schedAux_length p 48) (by rw [List.length_drop]; omega)]
      rw [compressAll_of_le h p hp, compress_eq h p hp]
    · simp only [Chunk64, BlockSize64, hp, if_false]
      rw [compressAll_of_lt h p (by omega)]

theorem blockGeneric_eq (d : Sha256Digest) (p : List Nat) :
    blockGeneric d p = some { d with H := compressAll d.H p } := by
  simp only [blockGeneric, Chunk64, BlockSize64,
    blockGenericLoop_eq (p.length / 64) _ d.H p (List.length_replicate _ _) (le_refl _),
    Option.bind_eq_bind, Option.some_bind, Option.pure_def]

open blockfuncType

/-- C15: dispatch selection policy.  As a function of the architecture name and the
capability flags, `init` selects the generic implementation on "386" and "arm" whatever
the flags, otherwise the first satisfied candidate in the order Sha (sha, ssse3 and
sse41), Avx2, Avx, Ssse (ssse3), Arm (armSha), and the generic one when none is satisfied;
the result is never `blockfuncAvx512`. -/
theorem init_selection_policy (goarch : String) (c : CpuFlags) :
    init goarch c = specDispatch goarch c ∧ init goarch c ≠ blockfuncAvx512 := by
  obtain ⟨sha, ssse3, sse41, avx2, avx, armSha⟩ := c
  by_cases h1 : goarch = "386" <;> by_cases h2 : goarch = "arm" <;>
    cases sha <;> cases ssse3 <;> cases sse41 <;> cases avx2 <;> cases avx <;> cases armSha <;>
    simp [init, specDispatch, candidates, h1, h2]

theorem prime_iff_small (p : Nat) (hp : p < 324) :
    Nat.Prime p ↔ (2 ≤ p ∧ ∀ m, m < 18 → 2 ≤ m → m ∣ p → m = p) := by
  constructor
  · intro h
    refine ⟨h.two_le, fun m _ h2 hd => ?_⟩
    rcases (Nat.dvd_prime h).1 hd with h1 | h1
    · omega
    · exact h1
  · rintro ⟨h2, hall⟩
    by_contra hnp
    have hsq : p.minFac ^ 2 ≤ p := Nat.minFac_sq_le_self (by omega) hnp
    have hm2 : 2 ≤ p.minFac := (Nat.minFac_prime (by omega)).two_le
    have hlt : p.minFac < 18 := by nlinarith
    have heq : p.minFac = p := hall _ hlt hm2 (Nat.minFac_dvd p)
    rw [heq] at hsq
    nlinarith

theorem primes64_spec : primes64.length = 64 ∧ primes64.Pairwise (fun a b => a < b) ∧
    ∀ p, p ∈ primes64 ↔ (Nat.Prime p ∧ p ≤ 311) := by
  refine ⟨by decide, by decide, ?_⟩
  have key : ∀ p, p < 312 →
      (p ∈ primes64 ↔ (2 ≤ p ∧ ∀ m, m < 18 → 2 ≤ m → m ∣ p → m = p)) := by
    decide!
  intro p
  constructor
  · intro hp
    have hlt : p < 312 := by
      have : ∀ q ∈ primes64, q < 312 := by decide
      exact this p hp
    exact ⟨(prime_iff_small p (by omega)).2 ((key p hlt).1 hp), by omega⟩
  · rintro ⟨hp, hle⟩
    exact (key p (by omega)).2 ((prime_iff_small p (by omega)).1 hp)

set_option maxRecDepth 10000 in
theorem constants_h : ∀ i, i < 8 →
    Nat.sqrt (primes64.getD i 0 * 2 ^ 64) % 2 ^ 32
      = [init0, init1, init2, init3, init4, init5, init6, init7].getD i 0 := by
  have key : ∀ i, i < 8 →
      let n := primes64.getD i 0 * 2 ^ 64
      let r := iroot 2 n 35
      r * r ≤ n ∧ n < (r + 1) * (r + 1) ∧
      r % 2 ^ 32 = [init0, init1, init2, init3, init4, init5, init6, init7].getD i 0 := by
    decide!
  intro i hi
  obtain ⟨h1, h2, h3⟩ := key i hi
  rw [← Nat.eq_sqrt.2 ⟨h1, h2⟩]
  exact h3

set_option maxRecDepth 10000 in
theorem constants_k : _K.length = 64 ∧ ∀ i, i < 64 →
    ∃ r, r ^ 3 ≤ primes64.getD i 0 * 2 ^ 96 ∧ primes64.getD i 0 * 2 ^ 96 < (r + 1) ^ 3 ∧
      r % 2 ^ 32 = _K.getD i 0 := by
  have key : ∀ i, i < 64 →
      let n := primes64.getD i 0 * 2 ^ 96
      let r := iroot 3 n 35
      r ^ 3 ≤ n ∧ n < (r + 1) ^ 3 ∧ r % 2 ^ 32 = _K.getD i 0 := by
    decide!
  refine ⟨by decide, fun i hi => ⟨_, key i hi⟩⟩

theorem rotr_eq (x k : Nat) (hx : x < 2 ^ 32) (hk0 : 0 < k) (hk : k < 32) :
    shr32 x k ||| shl32 x (32 - k) = rotr x k := by
  have h32 : (2:Nat) ^ 32 = 2 ^ k * 2 ^ (32 - k) := by
    rw [← pow_add]; congr 1; omega
  have h1 : x / 2 ^ k < 2 ^ (32 - k) := by
    rw [Nat.div_lt_iff_lt_mul (by positivity)]
    calc x < 2 ^ 32 := hx
      _ = 2 ^ (32 - k) * 2 ^ k := by rw [h32, mul_comm]
  simp only [shr32, shl32, rotr, Nat.shiftRight_eq_div_pow, Nat.shiftLeft_eq]
  rw [h32, Nat.mul_mod_mul_right, Nat.lor_comm, mul_comm (x % 2 ^ k), ← Nat.mul_add_lt_is_or h1,
    add_comm]

theorem not32_eq (x : Nat) (hx : x < 2 ^ 32) : not32 x = 2 ^ 32 - 1 - x := by
  apply Nat.eq_of_testBit_eq
  intro i
  have h1 : (0xFFFFFFFF : Nat) = 2 ^ 32 - 1 := by norm_num
  have h2 : 2 ^ 32 - 1 - x = 2 ^ 32 - (x + 1) := by omega
  rw [not32, Nat.testBit_xor, h1, Nat.testBit_two_pow_sub_one, h2,
    Nat.testBit_two_pow_sub_succ hx]
  by_cases hi : i < 32
  · simp [hi]
  · have : x.testBit i = false := by
      apply Nat.testBit_lt_two_pow
      calc x < 2 ^ 32 := hx
        _ ≤ 2 ^ i := Nat.pow_le_pow_right (by norm_num) (by omega)
    simp [hi, this]

theorem or_eq_add (a b j : Nat) (ha : 2 ^ j ∣ a) (hb : b < 2 ^ j) : a ||| b = a + b := by
  obtain ⟨c, rfl⟩ := ha
  exact (Nat.mul_add_lt_is_or hb c).symm

theorem getD_lt (l : List Nat) (B i : Nat) (hB : 0 < B) (h : ∀ x ∈ l, x < B) :
    l.getD i 0 < B := by
  rw [List.getD_eq_getElem?_getD]
  cases hx : l[i]? with
  | none => simpa using hB
  | some v =>
    simp only [Option.getD_some]
    obtain ⟨h', rfl⟩ := List.getElem?_eq_some.1 hx
    exact h _ (List.getElem_mem _)

theorem beWord_lt_aux (b0 b1 b2 b3 : Nat) (h0 : b0 < 256) (h1 : b1 < 256) (h2 : b2 < 256)
    (h3 : b3 < 256) :
    (shl32 b0 24 ||| shl32 b1 16 ||| shl32 b2 8 ||| b3)
      = b0 * 2 ^ 24 + b1 * 2 ^ 16 + b2 * 2 ^ 8 + b3 ∧
    b0 * 2 ^ 24 + b1 * 2 ^ 16 + b2 * 2 ^ 8 + b3 < 2 ^ 32 := by
  have e0 : shl32 b0 24 = b0 * 2 ^ 24 := by
    simp only [shl32, Nat.shiftLeft_eq]; exact Nat.mod_eq_of_lt (by omega)
  have e1 : shl32 b1 16 = b1 * 2 ^ 16 := by
    simp only [shl32, Nat.shiftLeft_eq]; exact Nat.mod_eq_of_lt (by omega)
  have e2 : shl32 b2 8 = b2 * 2 ^ 8 := by
    simp only [shl32, Nat.shiftLeft_eq]; exact Nat.mod_eq_of_lt (by omega)
  have f1 : b0 * 2 ^ 24 ||| b1 * 2 ^ 16 = b0 * 2 ^ 24 + b1 * 2 ^ 16 :=
    or_eq_add _ _ 24 (Dvd.intro_left _ rfl) (by omega)
  have f2 : (b0 * 2 ^ 24 + b1 * 2 ^ 16) ||| b2 * 2 ^ 8 = b0 * 2 ^ 24 + b1 * 2 ^ 16 + b2 * 2 ^ 8 :=
    or_eq_add _ _ 16 (by omega) (by omega)
  have f3 : (b0 * 2 ^ 24 + b1 * 2 ^ 16 + b2 * 2 ^ 8) ||| b3
      = b0 * 2 ^ 24 + b1 * 2 ^ 16 + b2 * 2 ^ 8 + b3 :=
    or_eq_add _ _ 8 (by omega) (by omega)
  rw [e0, e1, e2, f1, f2, f3]
  exact ⟨rfl, by omega⟩

theorem wordAt_eq (p : List Nat) (hp : Bytes p) (i : Nat) :
    wordAt p i = beWord p i ∧ wordAt p i < 2 ^ 32 := by
  have hb := fun j => getD_lt p 256 j (by norm_num) hp
  have h := beWord_lt_aux _ _ _ _ (hb (4 * i)) (hb (4 * i + 1)) (hb (4 * i + 2)) (hb (4 * i + 3))
  simp only [wordAt, beWord, Nat.mul_comm i 4]
  rw [h.1]
  exact ⟨rfl, h.2⟩

theorem add32_four (a b c d : Nat) :
    add32 (add32 (add32 a b) c) d = (a + b + c + d) % 2 ^ 32 := by
  unfold add32; omega

theorem add32_five (a b c d e : Nat) :
    add32 (add32 (add32 (add32 a b) c) d) e = (a + b + c + d + e) % 2 ^ 32 := by
  unfold add32; omega

theorem expandWord_eq (w : List Nat) (i : Nat) (hw : ∀ x ∈ w, x < 2 ^ 32) :
    expandWord w i = (sigma1 (w.getD (i - 2) 0) + w.getD (i - 7) 0 + sigma0 (w.getD (i - 15) 0)
      + w.getD (i - 16) 0) % 2 ^ 32 := by
  have hb := fun j => getD_lt w (2 ^ 32) j (by norm_num) hw
  simp only [expandWord, sigma0, sigma1, add32_four]
  rw [rotr_eq _ 17 (hb _) (by norm_num) (by norm_num),
    rotr_eq _ 19 (hb _) (by norm_num) (by norm_num),
    rotr_eq _ 7 (hb _) (by norm_num) (by norm_num),
    rotr_eq _ 18 (hb _) (by norm_num) (by norm_num)]
  simp only [shr32, Nat.shiftRight_eq_div_pow]

theorem schedAux_eq (p : List Nat) (hp : Bytes p) (n : Nat) :
    schedAux p n = specSchedule p n ∧ ∀ x ∈ schedAux p n, x < 2 ^ 32 := by
  induction n with
  | zero =>
    constructor
    · simp only [schedAux, specSchedule]
      exact List.map_congr_left (fun i _ => (wordAt_eq p hp i).1)
    · intro x hx
      simp only [schedAux, List.mem_map] at hx
      obtain ⟨i, _, rfl⟩ := hx
      exact (wordAt_eq p hp i).2
  | succ n ih =>
    constructor
    · simp only [schedAux, specSchedule]
      rw [expandWord_eq _ _ ih.2, ih.1]
    · intro x hx
      simp only [schedAux, List.mem_append, List.mem_singleton] at hx
      rcases hx with hx | rfl
      · exact ih.2 x hx
      · rw [expandWord_eq _ _ ih.2]
        exact Nat.mod_lt _ (by norm_num)

theorem roundAux_eq (w : List Nat) (s : Vars) (i : Nat) (ha : s.a < 2 ^ 32) (he : s.e < 2 ^ 32) :
    roundAux w s i = specRound s (_K.getD i 0) (w.getD i 0) ∧
      (specRound s (_K.getD i 0) (w.getD i 0)).a < 2 ^ 32 ∧
      (specRound s (_K.getD i 0) (w.getD i 0)).e < 2 ^ 32 := by
  refine ⟨?_, Nat.mod_lt _ (by norm_num), Nat.mod_lt _ (by norm_num)⟩
  simp only [roundAux, specRound, bigSigma0, bigSigma1, choose, majority, add32_five]
  rw [rotr_eq _ 6 he (by norm_num) (by norm_num), rotr_eq _ 11 he (by norm_num) (by norm_num),
    rotr_eq _ 25 he (by norm_num) (by norm_num), rotr_eq _ 2 ha (by norm_num) (by norm_num),
    rotr_eq _ 13 ha (by norm_num) (by norm_num), rotr_eq _ 22 ha (by norm_num) (by norm_num),
    not32_eq _ he]
  simp only [add32]

theorem foldl_eq_of_inv {σ : Type} (P : σ → Prop) (f g : σ → Nat → σ)
    (hstep : ∀ s i, P s → f s i = g s i ∧ P (g s i)) (l : List Nat) (s : σ) (hs : P s) :
    l.foldl f s = l.foldl g s := by
  induction l generalizing s with
  | nil => rfl
  | cons a l ih =>
    simp only [List.foldl_cons, (hstep s a hs).1]
    exact ih _ (hstep s a hs).2

theorem roundsAux_eq (w : List Nat) (s : Vars) (ha : s.a < 2 ^ 32) (he : s.e < 2 ^ 32)
    (l : List Nat) :
    l.foldl (roundAux w) s = l.foldl (fun s i => specRound s (_K.getD i 0) (w.getD i 0)) s :=
  foldl_eq_of_inv (fun s => s.a < 2 ^ 32 ∧ s.e < 2 ^ 32) (roundAux w)
    (fun s i => specRound s (_K.getD i 0) (w.getD i 0))
    (fun s i hs => ⟨(roundAux_eq _ s i hs.1 hs.2).1, (roundAux_eq _ s i hs.1 hs.2).2⟩)
    l s ⟨ha, he⟩

theorem compressAux_eq (h : H8) (p : List Nat) (hh : h.Valid) (hp : Bytes p) :
    compressAux h p = specCompress h p := by
  have h0 : h.h0 < 2 ^ 32 := hh _ (by simp [H8.toList])
  have h4 : h.h4 < 2 ^ 32 := hh _ (by simp [H8.toList])
  unfold compressAux specCompress
  rw [(schedAux_eq p hp 48).1, ← List.range_eq_range']
  simp only []
  rw [roundsAux_eq (specSchedule p 48) _ h0 h4]
  rfl

theorem H8.valid_mk (a b c d e f g h : Nat) (ha : a < 2 ^ 32) (hb : b < 2 ^ 32)
    (hc : c < 2 ^ 32) (hd : d < 2 ^ 32) (he : e < 2 ^ 32) (hf : f < 2 ^ 32) (hg : g < 2 ^ 32)
    (hh : h < 2 ^ 32) : (H8.mk a b c d e f g h).Valid := by
  intro v hv
  simp only [H8.toList, List.mem_cons, List.mem_singleton, List.not_mem_nil, or_false] at hv
  rcases hv with rfl | rfl | rfl | rfl | rfl | rfl | rfl | rfl <;> assumption

theorem specCompress_valid (h : H8) (p : List Nat) : (specCompress h p).Valid := by
  unfold specCompress
  have hm : ∀ x : Nat, x % 2 ^ 32 < 2 ^ 32 := fun x => Nat.mod_lt _ (by norm_num)
  exact H8.valid_mk _ _ _ _ _ _ _ _ (hm _) (hm _) (hm _) (hm _) (hm _) (hm _) (hm _) (hm _)

theorem compress_eq_spec (h : H8) (p : List Nat) (hh : h.Valid) (hp : Bytes p)
    (hl : 64 ≤ p.length) : compress h p = specCompress h p := by
  rw [compress_eq h p hl, compressAux_eq h p hh hp]

open blockfuncType

theorem block_eq (bf : blockfuncType) (d : Sha256Digest) (p : List Nat) :
    block bf d p = some { d with H := hashAll bf d.H p } := by
  cases bf <;>
    simp [block, hashAll, blockGeneric_eq, blockShaGo, blockAvx2Go, blockAvxGo, blockSsseGo,
      blockArmGo]

theorem fullBlocks_append (m : Nat) : ∀ (a b : List Nat), a.length = 64 * m →
    fullBlocks (a ++ b) = fullBlocks a ++ fullBlocks b := by
  induction m with
  | zero =>
    intro a b ha
    have : a = [] := List.length_eq_zero.1 (by omega)
    subst this
    simp [fullBlocks]
  | succ m ih =>
    intro a b ha
    have h1 : 64 ≤ a.length := by omega
    have h2 : 64 ≤ (a ++ b).length := by rw [List.length_append]; omega
    rw [fullBlocks_of_le _ h2, fullBlocks_of_le _ h1]
    have h3 : (a ++ b).take 64 = a.take 64 := by
      rw [List.take_append_of_le_length h1]
    have h4 : (a ++ b).drop 64 = a.drop 64 ++ b := by
      rw [List.drop_append_of_le_length h1]
    rw [h3, h4, ih (a.drop 64) b (by rw [List.length_drop]; omega)]
    simp

theorem compressAll_append (h : H8) (a b : List Nat) (ha : a.length % 64 = 0) :
    compressAll h (a ++ b) = compressAll (compressAll h a) b := by
  have hm : a.length = 64 * (a.length / 64) := by omega
  simp only [compressAll, fullBlocks_append _ a b hm, List.foldl_append]

theorem hashAll_append (bf : blockfuncType) (h : H8) (a b : List Nat) (ha : a.length % 64 = 0) :
    hashAll bf h (a ++ b) = hashAll bf (hashAll bf h a) b := by
  unfold hashAll
  split
  · exact compressAll_append h a b ha
  · rfl

theorem hashAll_of_lt (bf : blockfuncType) (h : H8) (p : List Nat) (hp : p.length < 64) :
    hashAll bf h p = h := by
  unfold hashAll
  split
  · exact compressAll_of_lt h p hp
  · rfl

theorem hashAll_append_of_lt (bf : blockfuncType) (h : H8) (a b : List Nat)
    (ha : a.length % 64 = 0) (hb : b.length < 64) : hashAll bf h (a ++ b) = hashAll bf h a := by
  rw [hashAll_append bf h a b ha, hashAll_of_lt bf _ b hb]

theorem hashAll_take (bf : blockfuncType) (h : H8) (p : List Nat) :
    hashAll bf h (p.take (64 * (p.length / 64))) = hashAll bf h p := by
  have h1 : (p.take (64 * (p.length / 64))).length = 64 * (p.length / 64) := by
    rw [List.length_take]; omega
  have h2 := hashAll_append_of_lt bf h (p.take (64 * (p.length / 64)))
    (p.drop (64 * (p.length / 64))) (by omega) (by rw [List.length_drop]; omega)
  rw [List.take_append_drop] at h2
  exact h2.symm

theorem hashAll_generic_block (h : H8) (blk : List Nat) (hb : blk.length = 64) :
    hashAll blockfuncGeneric h blk = compress h blk := by
  simp only [hashAll, if_true]
  rw [compressAll_of_le h blk (by omega), compressAll_of_lt _ _ (by rw [List.length_drop]; omega)]

theorem bitClear_63 (x : Nat) : bitClear x (Chunk64 - 1) = 64 * (x / 64) := by
  apply Nat.eq_of_testBit_eq
  intro i
  have h1 : (Chunk64 - 1 : Nat) = 2 ^ 6 - 1 := by decide
  have h2 : (64 : Nat) = 2 ^ 6 := by norm_num
  rw [bitClear, h1, Nat.and_pow_two_sub_one_eq_mod, Nat.testBit_xor, Nat.testBit_mod_two_pow, h2,
    Nat.testBit_mul_pow_two, ← Nat.shiftRight_eq_div_pow, Nat.testBit_shiftRight]
  by_cases hi : i < 6
  · simp [hi]
  · have h6 : 6 ≤ i := by omega
    have h7 : 6 + (i - 6) = i := by omega
    simp [hi, h6, h7]

open blockfuncType

theorem copyAt_eq (a src : List Nat) (n0 : Nat) (h : n0 ≤ a.length) :
    copyAt a (n0 : Int) src
      = some (a.take n0 ++ src.take (min (a.length - n0) src.length)
          ++ a.drop (n0 + min (a.length - n0) src.length), min (a.length - n0) src.length) := by
  have h1 : (0 : Int) ≤ (n0 : Int) ∧ (n0 : Int) ≤ (a.length : Int) := ⟨by omega, by omega⟩
  simp only [copyAt, h1, and_self, if_true, Int.toNat_ofNat]

theorem writeTail_eq (e : Sha256Digest) (t : List Nat) (hB : e.Block.length = 64)
    (ht : t.length < 64) :
    writeTail e t = some (if 0 < t.length then
      { e with Block := t ++ e.Block.drop t.length, Nx := (t.length : Int) } else e) := by
  unfold writeTail
  split
  · have h := copyAt_eq e.Block t 0 (by omega)
    have hm : min (e.Block.length - 0) t.length = t.length := by omega
    simp only [Nat.cast_zero, hm, List.take_zero, List.nil_append, Nat.zero_add,
      List.take_length] at h
    simp only [h, Option.some_bind]
  · rfl

theorem writeBlocks_eq (bf : blockfuncType) (e : Sha256Digest) (q : List Nat) :
    writeBlocks bf e q
      = some ({ e with H := hashAll bf e.H q }, q.drop (64 * (q.length / 64))) := by
  unfold writeBlocks
  split
  · rename_i h
    have hn : 64 * (q.length / 64) ≤ q.length := Nat.mul_div_le _ _
    simp only [bitClear_63, slice, sliceFrom, Nat.zero_le, hn, and_self, if_true,
      Option.some_bind, List.drop_zero, block_eq, hashAll_take]
  · rename_i h
    have hq : q.length < 64 := by simpa [Chunk64, BlockSize64] using h
    have h0 : q.length / 64 = 0 := Nat.div_eq_of_lt hq
    simp only [h0, Nat.mul_zero, List.drop_zero, hashAll_of_lt bf _ q hq]

theorem writeHead_zero (bf : blockfuncType) (d : Sha256Digest) (p : List Nat)
    (h : ¬ 0 < d.Nx) : writeHead bf d p = some (d, p) := by
  simp only [writeHead, h, if_false]

theorem writeHead_short (bf : blockfuncType) (d : Sha256Digest) (p : List Nat) (n0 : Nat)
    (hB : d.Block.length = 64) (hN : d.Nx = (n0 : Int)) (h0 : 0 < n0)
    (hp : n0 + p.length < 64) :
    writeHead bf d p = some ({ d with
        Block := (d.Block.take n0 ++ p ++ d.Block.drop (n0 + p.length)),
        Nx := ((n0 + p.length : Nat) : Int) }, []) := by
  have hpos : (0 : Int) < d.Nx := by omega
  have hm : min (d.Block.length - n0) p.length = p.length := by omega
  have hne : ¬ ((n0 : Int) + (p.length : Int) = (Chunk64 : Int)) := by
    simp only [Chunk64, BlockSize64]; omega
  simp only [writeHead, hpos, if_true]
  rw [hN, copyAt_eq d.Block p n0 (by omega)]
  simp only [hm, Option.some_bind, hne, if_false, sliceFrom, le_refl, if_true, List.take_length,
    List.drop_length, Nat.cast_add]

theorem writeHead_full (bf : blockfuncType) (d : Sha256Digest) (p : List Nat) (n0 : Nat)
    (hB : d.Block.length = 64) (hN : d.Nx = (n0 : Int)) (h0 : 0 < n0) (h1 : n0 < 64)
    (hp : 64 ≤ n0 + p.length) :
    writeHead bf d p = some ({ d with
        H := hashAll bf d.H (d.Block.take n0 ++ p.take (64 - n0)),
        Block := d.Block.take n0 ++ p.take (64 - n0), Nx := 0 }, p.drop (64 - n0)) := by
  have hpos : (0 : Int) < d.Nx := by omega
  have hm : min (d.Block.length - n0) p.length = 64 - n0 := by omega
  have he : (n0 : Int) + ((64 - n0 : Nat) : Int) = (Chunk64 : Int) := by
    simp only [Chunk64, BlockSize64]; omega
  have hd : d.Block.drop (n0 + (64 - n0)) = [] := by
    apply List.drop_eq_nil_of_le; omega
  have hle : 64 - n0 ≤ p.length := by omega
  simp only [writeHead, hpos, if_true]
  rw [hN, copyAt_eq d.Block p n0 (by omega)]
  simp only [hm, Option.some_bind, he, if_true, sliceFrom, hle, hd, List.append_nil, block_eq]

theorem writeRest_char (bf : blockfuncType) (e : Sha256Digest) (q : List Nat)
    (hB : e.Block.length = 64) (hN : e.Nx = 0) :
    ∃ e1, (writeBlocks bf e q).bind (fun r => writeTail r.1 r.2) = some e1 ∧
      Absorbed bf e.H q e1 ∧ e1.Len = e.Len := by
  have hl : (q.drop (64 * (q.length / 64))).length = q.length % 64 := by
    rw [List.length_drop]; omega
  have hk : q.length - q.length % 64 = 64 * (q.length / 64) := by omega
  rw [writeBlocks_eq, Option.some_bind]
  dsimp only
  rw [writeTail_eq { H := hashAll bf e.H q, Block := e.Block, Nx := e.Nx, Len := e.Len } _ hB
    (by rw [hl]; omega)]
  refine ⟨_, rfl, ?_⟩
  simp only [hl, Absorbed, hk]
  by_cases hr : 0 < q.length % 64
  · simp only [hr, if_true, and_true, true_and]
    refine ⟨?_, ?_⟩
    · rw [List.take_append_of_le_length (by rw [hl])]
      rw [List.take_of_length_le (by rw [hl])]
    · rw [List.length_append, hl, List.length_drop]; omega
  · have h0 : q.length % 64 = 0 := by omega
    rw [if_neg hr]
    refine ⟨⟨rfl, ?_, ?_, hB⟩, rfl⟩
    · dsimp only
      rw [hN, h0]; rfl
    · dsimp only
      rw [h0, List.take_zero]
      symm
      apply List.drop_eq_nil_of_le
      omega

theorem write_char (bf : blockfuncType) (d : Sha256Digest) (p : List Nat)
    (hB : d.Block.length = 64) (h0 : 0 ≤ d.Nx) (h1 : d.Nx < 64) :
    ∃ d1, Write bf d p = some (d1, (p.length : Int), none) ∧ WritePost bf d p d1 := by
  obtain ⟨n0, hn0⟩ := Int.eq_ofNat_of_zero_le h0
  obtain ⟨H, B, Nx, L⟩ := d
  dsimp only at hB hn0 h0 h1
  subst hn0
  have hn1 : n0 < 64 := by omega
  unfold Write WritePost
  dsimp only [Int.toNat_ofNat]
  by_cases hz : n0 = 0
  · subst hz
    rw [writeHead_zero bf _ p (by simp), Option.some_bind]
    dsimp only
    obtain ⟨e1, he1, ha, hl⟩ := writeRest_char bf
      { H := H, Block := B, Nx := ((0 : Nat) : Int), Len := (L + p.length) % 2 ^ 64 } p hB rfl
    rw [← Option.bind_assoc, he1, Option.some_bind]
    exact ⟨e1, rfl, by simpa using ha, hl⟩
  · by_cases hs : n0 + p.length < 64
    · rw [writeHead_short bf _ p n0 hB rfl (by omega) hs, Option.some_bind]
      dsimp only
      rw [writeBlocks_eq, Option.some_bind]
      rw [writeTail_eq _ _ (by simp [hB]; omega) (by simp)]
      simp only [List.drop_nil, List.length_nil, lt_self_iff_false, if_false, Option.some_bind]
      have hl : (B.take n0 ++ p).length = n0 + p.length := by
        rw [List.length_append, List.length_take]; omega
      refine ⟨_, rfl, ⟨?_, ?_, ?_, ?_⟩, rfl⟩
      · dsimp only
        rw [hashAll_of_lt bf H [] (by simp), hashAll_of_lt bf H _ (by rw [hl]; exact hs)]
      · dsimp only
        rw [hl, Nat.mod_eq_of_lt hs]
      · dsimp only
        rw [hl, Nat.mod_eq_of_lt hs, Nat.sub_self, List.drop_zero]
        rw [List.take_append_of_le_length (by rw [hl])]
        rw [List.take_of_length_le (by rw [hl])]
      · dsimp only
        rw [List.length_append, hl, List.length_drop]; omega
    · rw [writeHead_full bf _ p n0 hB rfl (by omega) hn1 (by omega), Option.some_bind]
      dsimp only
      have hB1 : (B.take n0 ++ p.take (64 - n0)).length = 64 := by
        rw [List.length_append, List.length_take, List.length_take]; omega
      obtain ⟨e1, he1, ha, hl⟩ := writeRest_char bf
        { H := hashAll bf H (B.take n0 ++ p.take (64 - n0)),
          Block := B.take n0 ++ p.take (64 - n0), Nx := 0, Len := (L + p.length) % 2 ^ 64 }
        (p.drop (64 - n0)) hB1 rfl
      rw [← Option.bind_assoc, he1, Option.some_bind]
      refine ⟨e1, rfl, ?_, hl⟩
      have hs : B.take n0 ++ p = (B.take n0 ++ p.take (64 - n0)) ++ p.drop (64 - n0) := by
        rw [List.append_assoc, List.take_append_drop]
      obtain ⟨a1, a2, a3, a4⟩ := ha
      have hlen : ((B.take n0 ++ p.take (64 - n0)) ++ p.drop (64 - n0)).length
          = 64 + (p.drop (64 - n0)).length := by
        rw [List.length_append, hB1]
      dsimp only at a1
      rw [hs]
      refine ⟨?_, ?_, ?_, a4⟩
      · rw [hashAll_append bf _ _ _ (by rw [hB1]), a1]
      · rw [a2, hlen]; congr 1; omega
      · rw [hlen]
        have hm : (64 + (p.drop (64 - n0)).length) % 64 = (p.drop (64 - n0)).length % 64 := by
          omega
        rw [hm, a3]
        have hd : 64 + (p.drop (64 - n0)).length - (p.drop (64 - n0)).length % 64
            = (B.take n0 ++ p.take (64 - n0)).length
              + ((p.drop (64 - n0)).length - (p.drop (64 - n0)).length % 64) := by
          rw [hB1]; omega
        rw [hd, List.drop_append]

open blockfuncType

theorem padStart_eq (d : Sha256Digest) (n0 : Nat) (hB : d.Block.length = 64)
    (hN : d.Nx = (n0 : Int)) (h : n0 < 64) :
    padStart d = some (d.Block.take n0 ++ 0x80 :: List.replicate (63 - n0) 0) := by
  have h1 : (0 : Int) ≤ (n0 : Int) ∧ (n0 : Int) ≤ (d.Block.length : Int) := ⟨by omega, by omega⟩
  have h2 := copyAt_eq (List.replicate 64 0) (d.Block.take n0) 0 (by simp)
  have hl : (d.Block.take n0).length = n0 := by rw [List.length_take]; omega
  have hm : min ((List.replicate 64 0).length - 0) (d.Block.take n0).length = n0 := by
    rw [hl, List.length_replicate]; omega
  rw [hm] at h2
  simp only [Nat.cast_zero, List.take_zero, List.nil_append, Nat.zero_add,
    List.drop_replicate] at h2
  simp only [List.take_take, min_self] at h2
  have h3 : (0 : Int) ≤ (n0 : Int) := by omega
  have h4 : n0 < (d.Block.take n0 ++ List.replicate (64 - n0) 0).length := by
    rw [List.length_append, hl, List.length_replicate]; omega
  have h5 : 64 - n0 = (63 - n0) + 1 := by omega
  simp only [padStart, hN, sliceTo, h1, and_self, if_true, Int.toNat_ofNat, Option.some_bind, h2,
    arrSetInt, h3, arrSet, h4]
  rw [List.set_append, hl, if_neg (by omega), Nat.sub_self, h5, List.replicate_succ,
    List.set_cons_zero]

theorem zeroLoop_eq (k : List Nat) (hk : k.length = 64) :
    ∀ n, n ≤ 64 → (List.range' 0 n).foldlM (fun k i => arrSet k i 0) k
      = some (List.replicate n 0 ++ k.drop n) := by
  intro n
  induction n with
  | zero => intro _; simp
  | succ n ih =>
    intro hn
    rw [List.range'_concat, List.foldlM_append, ih (by omega)]
    simp only [Option.bind_eq_bind, Option.some_bind, List.foldlM_cons, List.foldlM_nil,
      Nat.zero_add, Nat.one_mul, arrSet]
    rw [if_pos (by simp; omega)]
    simp only [Option.some_bind, Option.bind_some]
    rw [set_append_drop _ k n _ (by simp) (by omega), List.replicate_succ']
    rfl

theorem onSlice_put64 (k : List Nat) (v : Nat) (hk : k.length = 64) :
    onSlice k 56 64 (PutUint64 v) = some (k.take 56 ++ be64 v) := by
  have h1 : (56 : Nat) ≤ 64 ∧ 64 ≤ k.length := ⟨by omega, by omega⟩
  have h2 : ((k.take 64).drop 56).length = 8 := by
    rw [List.length_drop, List.length_take]; omega
  have h3 : ((k.take 64).drop 56).drop 8 = [] := List.drop_eq_nil_of_le (by omega)
  have h4 : k.drop 64 = [] := List.drop_eq_nil_of_le (by omega)
  simp only [onSlice, slice, h1, and_self, if_true, Option.bind_eq_bind, Option.some_bind,
    PutUint64, h2, h3, h4, Nat.shiftRight_eq_div_pow, be64, List.append_nil, Option.pure_def,
    show (7 : Nat) < 8 by omega]

theorem putDigest_eq (h : H8) : putDigest h = some (digestBytes h) := by
  simp [putDigest, onSlice, slice, PutUint32, Size, digestBytes, be32, List.replicate,
    Nat.shiftRight_eq_div_pow]

theorem padSpill_small (bf : blockfuncType) (d : Sha256Digest) (k : List Nat)
    (h : ¬ (56 : Int) ≤ d.Nx) : padSpill bf d k = some (d, k) := by
  simp only [padSpill, h, if_false]

theorem padSpill_large (bf : blockfuncType) (d : Sha256Digest) (k : List Nat)
    (hk : k.length = 64) (h : (56 : Int) ≤ d.Nx) :
    padSpill bf d k = some ({ d with H := hashAll bf d.H k }, List.replicate 64 0) := by
  have hz := zeroLoop_eq k hk 64 (le_refl _)
  rw [List.drop_eq_nil_of_le (by omega), List.append_nil] at hz
  simp only [padSpill, h, if_true, block_eq, Option.some_bind, hz]

theorem padBlocks_large (pre : List Nat) (len n0 : Nat) (hl : pre.length = n0) (h : 56 ≤ n0) :
    padBlocks pre len = (pre ++ 0x80 :: List.replicate (63 - n0) 0)
      ++ ((List.replicate 64 0).take 56 ++ be64 ((len <<< 3) % 2 ^ 64)) := by
  rw [padBlocks, if_neg (by omega), hl, List.take_replicate]
  simp only [List.append_assoc, List.singleton_append]
  rfl

theorem padBlocks_small (pre : List Nat) (len n0 : Nat) (hl : pre.length = n0) (h : n0 ≤ 55) :
    padBlocks pre len = (pre ++ 0x80 :: List.replicate (63 - n0) 0).take 56
      ++ be64 ((len <<< 3) % 2 ^ 64) := by
  have h63 : 63 - n0 = (55 - n0) + 8 := by omega
  have h56 : 56 - n0 = (55 - n0) + 1 := by omega
  rw [padBlocks, if_pos (by omega), hl, List.take_append_eq_append_take, hl,
    List.take_of_length_le (by omega), h56, List.take_succ_cons, List.take_replicate, h63]
  simp only [List.append_assoc, List.singleton_append, Nat.le_add_right, min_eq_left]

theorem checkSum_eq (bf : blockfuncType) (d : Sha256Digest) (n0 : Nat)
    (hB : d.Block.length = 64) (hN : d.Nx = (n0 : Int)) (h : n0 < 64) :
    CheckSum bf d
      = some ({ d with H := hashAll bf d.H (padBlocks (d.Block.take n0) d.Len) },
              digestBytes (hashAll bf d.H (padBlocks (d.Block.take n0) d.Len))) := by
  have hl : (d.Block.take n0).length = n0 := by rw [List.length_take]; omega
  unfold CheckSum
  rw [padStart_eq d n0 hB hN h, Option.some_bind]
  generalize d.Block.take n0 = pre at *
  have hk : (pre ++ 0x80 :: List.replicate (63 - n0) 0).length = 64 := by
    rw [List.length_append, hl, List.length_cons, List.length_replicate]; omega
  by_cases h56 : 56 ≤ n0
  · rw [padSpill_large bf d _ hk (by omega), Option.some_bind]
    dsimp only
    rw [onSlice_put64 _ _ (by simp), Option.some_bind, block_eq, Option.some_bind, putDigest_eq,
      Option.some_bind]
    dsimp only
    rw [padBlocks_large pre d.Len n0 hl h56,
      hashAll_append bf d.H (pre ++ 0x80 :: List.replicate (63 - n0) 0) _ (by rw [hk])]
  · rw [padSpill_small bf d _ (by omega), Option.some_bind]
    dsimp only
    rw [onSlice_put64 _ _ hk, Option.some_bind, block_eq, Option.some_bind, putDigest_eq,
      Option.some_bind, padBlocks_small pre d.Len n0 hl (by omega)]

open blockfuncType

theorem absorbed_append (bf : blockfuncType) (h : H8) (A S : List Nat) (e : Sha256Digest)
    (hA : A.length % 64 = 0) (ha : Absorbed bf (hashAll bf h A) S e) :
    Absorbed bf h (A ++ S) e := by
  obtain ⟨a1, a2, a3, a4⟩ := ha
  have hm : (A ++ S).length % 64 = S.length % 64 := by
    rw [List.length_append]; omega
  have hd : (A ++ S).length - S.length % 64 = A.length + (S.length - S.length % 64) := by
    rw [List.length_append]; omega
  refine ⟨?_, ?_, ?_, a4⟩
  · rw [hashAll_append bf h A S hA, a1]
  · rw [a2, hm]
  · rw [hm, a3, hd, List.drop_append]

theorem absorbed_nx (bf : blockfuncType) (h : H8) (X : List Nat) (d : Sha256Digest)
    (ha : Absorbed bf h X d) : 0 ≤ d.Nx ∧ d.Nx < 64 ∧ d.Nx.toNat = X.length % 64 := by
  obtain ⟨_, a2, _, _⟩ := ha
  rw [a2]
  exact ⟨by omega, by omega, Int.toNat_ofNat _⟩

theorem absorbed_write (bf : blockfuncType) (h : H8) (X p : List Nat) (d d1 : Sha256Digest)
    (ha : Absorbed bf h X d) (hw : WritePost bf d p d1) : Absorbed bf h (X ++ p) d1 := by
  obtain ⟨_, _, hn⟩ := absorbed_nx bf h X d ha
  obtain ⟨a1, a2, a3, a4⟩ := ha
  have hk : X.length - X.length % 64 = 64 * (X.length / 64) := by omega
  have hX : X.take (64 * (X.length / 64)) ++ X.drop (64 * (X.length / 64)) = X :=
    List.take_append_drop _ _
  have hA : (X.take (64 * (X.length / 64))).length % 64 = 0 := by
    rw [List.length_take]; omega
  have h1 := hw.1
  rw [hn, a3, a1, hk, ← hashAll_take] at h1
  have h2 := absorbed_append bf h _ _ d1 hA h1
  rw [← List.append_assoc, hX] at h2
  exact h2

theorem tracks_reset (bf : blockfuncType) (d0 : Sha256Digest) (hB : d0.Block.length = 64) :
    Tracks bf [] (Reset d0) := by
  refine ⟨⟨?_, rfl, rfl, hB⟩, rfl⟩
  rw [hashAll_of_lt bf _ [] (by simp)]
  rfl

theorem tracks_write (bf : blockfuncType) (X p : List Nat) (d : Sha256Digest)
    (ht : Tracks bf X d) :
    ∃ d1, Write bf d p = some (d1, (p.length : Int), none) ∧ Tracks bf (X ++ p) d1 := by
  obtain ⟨h0, h1, _⟩ := absorbed_nx bf _ X d ht.1
  obtain ⟨d1, hw, hp⟩ := write_char bf d p ht.1.2.2.2 h0 h1
  refine ⟨d1, hw, absorbed_write bf _ X p d d1 ht.1 hp, ?_⟩
  rw [hp.2, ht.2, List.length_append]
  omega

theorem tracks_checkSum (bf : blockfuncType) (X : List Nat) (d : Sha256Digest)
    (ht : Tracks bf X d) :
    CheckSum bf d = some ({ d with H := finalH bf X }, digestBytes (finalH bf X)) := by
  obtain ⟨⟨a1, a2, a3, a4⟩, hl⟩ := ht
  rw [checkSum_eq bf d (X.length % 64) a4 a2 (by omega), a3, a1, hl]
  rfl

theorem tracks_sum (bf : blockfuncType) (X inp : List Nat) (d : Sha256Digest)
    (ht : Tracks bf X d) : Sum bf d inp = some (d, inp ++ digestBytes (finalH bf X)) := by
  simp only [Sum, tracks_checkSum bf X d ht, Option.some_bind]

theorem tracks_step (bf : blockfuncType) (X : List Nat) (d : Sha256Digest) (op : Op)
    (ht : Tracks bf X d) :
    ∃ d1, step bf d op = some d1 ∧ Tracks bf (writtenFrom X [op]) d1 := by
  cases op with
  | write p =>
    obtain ⟨d1, hw, h1⟩ := tracks_write bf X p d ht
    exact ⟨d1, by simp only [step, hw, Option.map_some'], h1⟩
  | sum inp =>
    exact ⟨d, by simp only [step, tracks_sum bf X inp d ht, Option.map_some'], ht⟩
  | reset => exact ⟨Reset d, rfl, tracks_reset bf d ht.1.2.2.2⟩

theorem tracks_run (bf : blockfuncType) (ops : List Op) : ∀ (X : List Nat) (d : Sha256Digest),
    Tracks bf X d → ∃ d1, run bf d ops = some d1 ∧ Tracks bf (writtenFrom X ops) d1 := by
  induction ops with
  | nil => intro X d ht; exact ⟨d, rfl, ht⟩
  | cons op ops ih =>
    intro X d ht
    obtain ⟨d1, hs, h1⟩ := tracks_step bf X d op ht
    obtain ⟨d2, hr, h2⟩ := ih _ d1 h1
    refine ⟨d2, ?_, ?_⟩
    · simp only [run, List.foldlM_cons, hs, Option.bind_eq_bind, Option.some_bind]
      exact hr
    · cases op <;> exact h2

theorem sum256Reuse_eq (bf : blockfuncType) (d : Sha256Digest) (X : List Nat)
    (hB : d.Block.length = 64) : Sum256Reuse bf d X = some (digestBytes (finalH bf X)) := by
  obtain ⟨d1, hw, h1⟩ := tracks_write bf [] X (Reset d) (tracks_reset bf d hB)
  rw [List.nil_append] at h1
  simp only [Sum256Reuse, hw, Option.some_bind, tracks_checkSum bf X d1 h1]

theorem sum256_eq (bf : blockfuncType) (X : List Nat) :
    Sum256 bf X = some (digestBytes (finalH bf X)) :=
  sum256Reuse_eq bf zeroDigest X (by simp [zeroDigest, Chunk64, BlockSize64])

open blockfuncType

theorem fullBlocks_mem (p b : List Nat) (hb : b ∈ fullBlocks p) :
    b.length = 64 ∧ ∀ x ∈ b, x ∈ p := by
  simp only [fullBlocks, List.mem_map, List.mem_range] at hb
  obtain ⟨i, hi, rfl⟩ := hb
  constructor
  · rw [List.length_take, List.length_drop]
    have : 64 * i + 64 ≤ p.length := by
      have := Nat.mul_div_le p.length 64
      nlinarith
    omega
  · intro x hx
    exact List.mem_of_mem_drop (List.mem_of_mem_take hx)

theorem foldl_compress_eq_spec (bs : List (List Nat)) :
    ∀ h : H8, h.Valid → (∀ b ∈ bs, Bytes b ∧ 64 ≤ b.length) →
      bs.foldl compress h = bs.foldl specCompress h := by
  induction bs with
  | nil => intro h _ _; rfl
  | cons b bs ih =>
    intro h hh hb
    have h1 := hb b (List.mem_cons_self _ _)
    simp only [List.foldl_cons, compress_eq_spec h b hh h1.1 h1.2]
    exact ih _ (specCompress_valid h b) (fun c hc => hb c (List.mem_cons_of_mem _ hc))

theorem compressAll_eq_spec (h : H8) (p : List Nat) (hh : h.Valid) (hp : Bytes p) :
    compressAll h p = (fullBlocks p).foldl specCompress h := by
  apply foldl_compress_eq_spec _ h hh
  intro b hb
  obtain ⟨h1, h2⟩ := fullBlocks_mem p b hb
  exact ⟨fun x hx => hp x (h2 x hx), by omega⟩

theorem be64_bytes (v : Nat) : Bytes (be64 v) := by
  intro b hb
  simp only [be64, List.mem_cons, List.mem_singleton, List.not_mem_nil, or_false] at hb
  rcases hb with rfl | rfl | rfl | rfl | rfl | rfl | rfl | rfl <;>
    exact Nat.mod_lt _ (by norm_num)

theorem specPad_bytes (X : List Nat) (hX : Bytes X) : Bytes (specPad X) := by
  intro b hb
  simp only [specPad, List.mem_append, List.mem_singleton, List.mem_replicate] at hb
  rcases hb with ((hb | rfl) | ⟨_, rfl⟩) | hb
  · exact hX b hb
  · norm_num
  · norm_num
  · exact be64_bytes _ b hb

theorem pad_eq_specPad (X : List Nat) (hl : X.length < 2 ^ 61) :
    X.take (64 * (X.length / 64))
      ++ padBlocks (X.drop (X.length - X.length % 64)) (X.length % 2 ^ 64) = specPad X := by
  have hk : X.length - X.length % 64 = 64 * (X.length / 64) := by omega
  have hr : (X.drop (64 * (X.length / 64))).length = X.length % 64 := by
    rw [List.length_drop]; omega
  have hL : (X.length % 2 ^ 64) <<< 3 % 2 ^ 64 = 8 * X.length := by
    rw [Nat.shiftLeft_eq]; omega
  rw [hk, padBlocks, hr, hL, specPad]
  by_cases h55 : X.length % 64 ≤ 55
  · have hz : (119 - X.length % 64) % 64 = 55 - X.length % 64 := by omega
    rw [if_pos h55, hz]
    simp only [← List.append_assoc, List.take_append_drop]
  · have hz : (119 - X.length % 64) % 64 = (63 - X.length % 64) + 56 := by omega
    rw [if_neg h55, hz, List.replicate_add]
    simp only [← List.append_assoc, List.take_append_drop]

theorem finalH_generic (X : List Nat) :
    finalH blockfuncGeneric X = compressAll specInit (X.take (64 * (X.length / 64))
      ++ padBlocks (X.drop (X.length - X.length % 64)) (X.length % 2 ^ 64)) := by
  have h1 := hashAll_take blockfuncGeneric specInit X
  have h2 : (X.take (64 * (X.length / 64))).length % 64 = 0 := by
    rw [List.length_take]; omega
  rw [finalH, ← h1, ← hashAll_append blockfuncGeneric specInit _ _ h2]
  simp only [hashAll, if_true]

theorem specInit_valid : specInit.Valid := by decide

theorem sum256_eq_spec (X : List Nat) (hX : Bytes X) (hl : X.length < 2 ^ 61) :
    Sum256 blockfuncGeneric X = some (specSha256 X) := by
  rw [sum256_eq, finalH_generic, pad_eq_specPad X hl,
    compressAll_eq_spec specInit _ specInit_valid (specPad_bytes X hX)]
  rfl

open blockfuncType

theorem rotr_code_testBit (x k i : Nat) (hx : x < 2 ^ 32) (hk0 : 0 < k) (hk : k < 32)
    (hi : i < 32) :
    (shr32 x k ||| shl32 x (32 - k)).testBit i = x.testBit ((i + k) % 32) := by
  simp only [shr32, shl32, Nat.testBit_or, Nat.testBit_shiftRight, Nat.testBit_mod_two_pow,
    Nat.testBit_shiftLeft, hi, decide_True, Bool.true_and]
  by_cases h : i + k < 32
  · have h1 : ¬ (i ≥ 32 - k) := by omega
    have h2 : (i + k) % 32 = k + i := by omega
    simp [h1, h2]
  · have h1 : i ≥ 32 - k := by omega
    have h2 : (i + k) % 32 = i - (32 - k) := by omega
    have h3 : x.testBit (k + i) = false := by
      apply Nat.testBit_lt_two_pow
      calc x < 2 ^ 32 := hx
        _ ≤ 2 ^ (k + i) := Nat.pow_le_pow_right (by norm_num) (by omega)
    simp [h1, h2, h3]

theorem digestBytes_length (h : H8) : (digestBytes h).length = 32 := by
  simp [digestBytes, be32]

theorem blockGeneric_block (d : Sha256Digest) (blk : List Nat) (hl : blk.length = 64) :
    blockGeneric d blk = some { d with H := (compress d.H blk) } := by
  rw [blockGeneric_eq, ← hashAll_generic_block d.H blk hl]
  simp only [hashAll, if_true]

/-- C11: for a state with 32-bit words and a block of exactly 64 bytes, `blockGeneric`
replaces `H` by the SHA-256 compression of `(H, p)` as the specification words it
(big-endian words, the `sigma` schedule expansion, 64 rounds with `T1`/`T2`, final
addition modulo `2^32`), and every code expression `x>>k | x<<(32-k)` on a 32-bit word is
the rotation to the right by `k`: bit `i` of the result is bit `(i + k) mod 32` of `x`. -/
theorem blockGeneric_is_sha256_compression (d : Sha256Digest) (p : List Nat)
    (hH : d.H.Valid) (hp : Bytes p) (hl : p.length = 64) :
    blockGeneric d p = some { d with H := (specCompress d.H p) } ∧
    ∀ x k, x < 2 ^ 32 → 0 < k → k < 32 →
      shr32 x k ||| shl32 x (32 - k) = rotr x k ∧
      ∀ i, i < 32 → (shr32 x k ||| shl32 x (32 - k)).testBit i = x.testBit ((i + k) % 32) := by
  refine ⟨?_, fun x k hx hk0 hk => ⟨rotr_eq x k hx hk0 hk,
    fun i hi => rotr_code_testBit x k i hx hk0 hk hi⟩⟩
  rw [blockGeneric_block d p hl, compress_eq_spec d.H p hH hp (by omega)]

/-- Witness for C11: the first block of the padded message "abc" from the initial state. -/
theorem blockGeneric_is_sha256_compression_witness :
    blockGeneric (Reset zeroDigest) ([0x61, 0x62, 0x63, 0x80] ++ List.replicate 59 0 ++ [0x18])
      = some { Reset zeroDigest with H := (specCompress (Reset zeroDigest).H
          ([0x61, 0x62, 0x63, 0x80] ++ List.replicate 59 0 ++ [0x18])) } :=
  (blockGeneric_is_sha256_compression (Reset zeroDigest)
    ([0x61, 0x62, 0x63, 0x80] ++ List.replicate 59 0 ++ [0x18])
    (by decide) (by decide) (by decide)).1

/-- C12: `blockGeneric` applies the single-block compression to the consecutive full
64-byte blocks of `p`, first to last, each output being the next input, and ignores the
trailing `len(p) mod 64` bytes; it composes over a prefix whose length is a multiple of
64 and is the identity when `len(p) < 64`. -/
theorem blockGeneric_blocks_in_order (d : Sha256Digest) (p : List Nat) :
    blockGeneric d p = some { d with H := ((fullBlocks p).foldl compress d.H) } ∧
    (fullBlocks p).length = p.length / 64 ∧
    (∀ i, i < p.length / 64 → (fullBlocks p).getD i [] = (p.drop (64 * i)).take 64) ∧
    (∀ blk : List Nat, blk.length = 64 →
      blockGeneric d blk = some { d with H := (compress d.H blk) }) ∧
    blockGeneric d p = blockGeneric d (p.take (64 * (p.length / 64))) ∧
    (∀ p1 p2 : List Nat, p1.length % 64 = 0 →
      blockGeneric d (p1 ++ p2) = (blockGeneric d p1).bind fun d1 => blockGeneric d1 p2) ∧
    (p.length < 64 → blockGeneric d p = some d) := by
  refine ⟨blockGeneric_eq d p, by simp [fullBlocks], ?_, fun blk hb => blockGeneric_block d blk hb,
    ?_, ?_, ?_⟩
  · intro i hi
    simp [fullBlocks, List.getD_eq_getElem?_getD, List.getElem?_map, List.getElem?_range hi]
  · have h := hashAll_take blockfuncGeneric d.H p
    simp only [hashAll, if_true] at h
    rw [blockGeneric_eq, blockGeneric_eq, h]
  · intro p1 p2 h1
    rw [blockGeneric_eq, blockGeneric_eq, Option.some_bind, blockGeneric_eq,
      compressAll_append d.H p1 p2 h1]
  · intro hp
    rw [blockGeneric_eq, compressAll_of_lt d.H p hp]

open blockfuncType

theorem shl3_eq (len : Nat) : (len <<< 3) % 2 ^ 64 = len * 8 % 2 ^ 64 := by
  rw [Nat.shiftLeft_eq]

theorem checkSum_small (d : Sha256Digest) (n0 : Nat) (hB : d.Block.length = 64)
    (hN : d.Nx = (n0 : Int)) (h : n0 ≤ 55) :
    CheckSum blockfuncGeneric d = some
      ({ d with H := (compress d.H (d.Block.take n0 ++ [0x80] ++ List.replicate (55 - n0) 0
          ++ be64 (d.Len * 8 % 2 ^ 64))) },
       digestBytes (compress d.H (d.Block.take n0 ++ [0x80] ++ List.replicate (55 - n0) 0
          ++ be64 (d.Len * 8 % 2 ^ 64)))) ∧
    (d.Block.take n0 ++ [0x80] ++ List.replicate (55 - n0) 0
          ++ be64 (d.Len * 8 % 2 ^ 64)).length = 64 := by
  have hl : (d.Block.take n0).length = n0 := by rw [List.length_take]; omega
  have h64 : (d.Block.take n0 ++ [0x80] ++ List.replicate (55 - n0) 0
      ++ be64 (d.Len * 8 % 2 ^ 64)).length = 64 := by
    simp only [List.length_append, hl, List.length_replicate, be64, List.length_cons,
      List.length_nil]
    omega
  refine ⟨?_, h64⟩
  rw [checkSum_eq blockfuncGeneric d n0 hB hN (by omega), padBlocks, if_pos (by omega), hl, shl3_eq,
    hashAll_generic_block _ _ h64]

theorem checkSum_large (d : Sha256Digest) (n0 : Nat) (hB : d.Block.length = 64)
    (hN : d.Nx = (n0 : Int)) (h : 56 ≤ n0) (h64 : n0 < 64) :
    CheckSum blockfuncGeneric d = some
      ({ d with H := (compress (compress d.H
            (d.Block.take n0 ++ [0x80] ++ List.replicate (63 - n0) 0))
            (List.replicate 56 0 ++ be64 (d.Len * 8 % 2 ^ 64))) },
       digestBytes (compress (compress d.H
            (d.Block.take n0 ++ [0x80] ++ List.replicate (63 - n0) 0))
            (List.replicate 56 0 ++ be64 (d.Len * 8 % 2 ^ 64)))) ∧
    (d.Block.take n0 ++ [0x80] ++ List.replicate (63 - n0) 0).length = 64 ∧
    (List.replicate 56 0 ++ be64 (d.Len * 8 % 2 ^ 64)).length = 64 := by
  have hl : (d.Block.take n0).length = n0 := by rw [List.length_take]; omega
  have ha : (d.Block.take n0 ++ [0x80] ++ List.replicate (63 - n0) 0).length = 64 := by
    simp only [List.length_append, hl, List.length_replicate, List.length_cons, List.length_nil]
    omega
  have hb : (List.replicate 56 0 ++ be64 (d.Len * 8 % 2 ^ 64)).length = 64 := by
    simp [be64]
  refine ⟨?_, ha, hb⟩
  rw [checkSum_eq blockfuncGeneric d n0 hB hN h64, padBlocks, if_neg (by omega), hl, shl3_eq,
    hashAll_append _ _ _ _ (by rw [ha]), hashAll_generic_block _ _ ha,
    hashAll_generic_block _ _ hb]

/-- C13: padding rule of `CheckSum` under the generic compression, for a state with
`Nx = n`, `0 <= n < 64`.  The result is the big-endian serialisation (32 bytes) of `H'`,
where with `L` the 8 big-endian bytes of `(Len * 8) mod 2^64`: for `n <= 55`, `H'` is one
compression of `H` with `Block[0..n) ++ [0x80] ++ zeros(55-n) ++ L`; for `n >= 56`, `H'` is
the compression with `Block[0..n) ++ [0x80] ++ zeros(63-n)` followed by a second one with
`zeros(56) ++ L`. -/
theorem checkSum_padding_rule (d : Sha256Digest) (hB : d.Block.length = 64) (h0 : 0 ≤ d.Nx)
    (h1 : d.Nx < 64) :
    (d.Nx ≤ 55 →
      CheckSum blockfuncGeneric d = some
        ({ d with H := (compress d.H (d.Block.take d.Nx.toNat ++ [0x80]
            ++ List.replicate (55 - d.Nx.toNat) 0 ++ be64 (d.Len * 8 % 2 ^ 64))) },
         digestBytes (compress d.H (d.Block.take d.Nx.toNat ++ [0x80]
            ++ List.replicate (55 - d.Nx.toNat) 0 ++ be64 (d.Len * 8 % 2 ^ 64)))) ∧
      (d.Block.take d.Nx.toNat ++ [0x80] ++ List.replicate (55 - d.Nx.toNat) 0
            ++ be64 (d.Len * 8 % 2 ^ 64)).length = 64) ∧
    (56 ≤ d.Nx →
      CheckSum blockfuncGeneric d = some
        ({ d with H := (compress (compress d.H
              (d.Block.take d.Nx.toNat ++ [0x80] ++ List.replicate (63 - d.Nx.toNat) 0))
              (List.replicate 56 0 ++ be64 (d.Len * 8 % 2 ^ 64))) },
         digestBytes (compress (compress d.H
              (d.Block.take d.Nx.toNat ++ [0x80] ++ List.replicate (63 - d.Nx.toNat) 0))
              (List.replicate 56 0 ++ be64 (d.Len * 8 % 2 ^ 64)))) ∧
      (d.Block.take d.Nx.toNat ++ [0x80] ++ List.replicate (63 - d.Nx.toNat) 0).length = 64 ∧
      (List.replicate 56 0 ++ be64 (d.Len * 8 % 2 ^ 64)).length = 64) ∧
    (∀ h : H8, (digestBytes h).length = 32 ∧
      digestBytes h = be32 h.h0 ++ be32 h.h1 ++ be32 h.h2 ++ be32 h.h3 ++ be32 h.h4
        ++ be32 h.h5 ++ be32 h.h6 ++ be32 h.h7) := by
  obtain ⟨n0, hn0⟩ := Int.eq_ofNat_of_zero_le h0
  have ht : d.Nx.toNat = n0 := by rw [hn0]; exact Int.toNat_ofNat _
  rw [ht]
  refine ⟨fun h => checkSum_small d n0 hB hn0 (by omega),
    fun h => checkSum_large d n0 hB hn0 (by omega) (by omega),
    fun h => ⟨digestBytes_length h, rfl⟩⟩

/-- Witness for C13: the freshly reset digest (`Nx = 0`). -/
theorem checkSum_padding_rule_witness :
    CheckSum blockfuncGeneric (Reset zeroDigest) = some
      ({ Reset zeroDigest with H := (compress (Reset zeroDigest).H
          ((Reset zeroDigest).Block.take (Reset zeroDigest).Nx.toNat ++ [0x80]
            ++ List.replicate (55 - (Reset zeroDigest).Nx.toNat) 0
            ++ be64 ((Reset zeroDigest).Len * 8 % 2 ^ 64))) },
       digestBytes (compress (Reset zeroDigest).H
          ((Reset zeroDigest).Block.take (Reset zeroDigest).Nx.toNat ++ [0x80]
            ++ List.replicate (55 - (Reset zeroDigest).Nx.toNat) 0
            ++ be64 ((Reset zeroDigest).Len * 8 % 2 ^ 64)))) :=
  ((checkSum_padding_rule (Reset zeroDigest) (by decide) (by decide) (by decide)).1
    (by decide)).1

open blockfuncType

theorem pendingWith_length (d : Sha256Digest) (p : List Nat) (hB : d.Block.length = 64)
    (h0 : 0 ≤ d.Nx) (h1 : d.Nx < 64) :
    (pendingWith d p).length = d.Nx.toNat + p.length := by
  rw [pendingWith, List.length_append, List.length_take]
  omega

/-- C14: exact effect of `Write` under the generic compression, for a state with
`0 <= Nx < 64`.  With `s = Block[0..Nx) ++ p`, `q = len(s) / 64` and `r = len(s) mod 64`:
`Write(p)` returns `len(p)` and no error, `H` becomes the compression of the `q`
consecutive blocks of `s` in order from the old `H`, `Nx = r`, and `Block[0..r)` holds the
last `r` bytes of `s`.  When `Nx + len(p) < 64` nothing is compressed and `p` is appended
to the pending bytes; when `Nx + len(p) = 64` the buffer is compressed once and `Nx = 0`. -/
theorem write_exact_effect (d : Sha256Digest) (p : List Nat) (hB : d.Block.length = 64)
    (h0 : 0 ≤ d.Nx) (h1 : d.Nx < 64) :
    ∃ d1, Write blockfuncGeneric d p = some (d1, (p.length : Int), none) ∧
      d1.H = (fullBlocks (pendingWith d p)).foldl compress d.H ∧
      (fullBlocks (pendingWith d p)).length = (pendingWith d p).length / 64 ∧
      d1.Nx = (((pendingWith d p).length % 64 : Nat) : Int) ∧
      d1.Block.take ((pendingWith d p).length % 64)
        = (pendingWith d p).drop ((pendingWith d p).length - (pendingWith d p).length % 64) ∧
      d1.Block.length = 64 ∧
      (d.Nx + p.length < 64 →
        d1.H = d.H ∧ d1.Nx = d.Nx + p.length ∧
        d1.Block.take (d.Nx.toNat + p.length) = d.Block.take d.Nx.toNat ++ p) ∧
      (d.Nx + p.length = 64 →
        d1.H = compress d.H (d.Block.take d.Nx.toNat ++ p) ∧ d1.Nx = 0) := by
  obtain ⟨d1, hw, ⟨a1, a2, a3, a4⟩, _⟩ := write_char blockfuncGeneric d p hB h0 h1
  have hl := pendingWith_length d p hB h0 h1
  simp only [pendingWith] at hl ⊢
  generalize d.Block.take d.Nx.toNat ++ p = s at *
  have a1' : d1.H = compressAll d.H s := by
    rw [a1]; simp only [hashAll, if_true]
  refine ⟨d1, hw, a1', by simp [fullBlocks], a2, a3, a4, ?_, ?_⟩
  · intro hs
    have hs' : s.length < 64 := by omega
    have hm : s.length % 64 = d.Nx.toNat + p.length := by omega
    refine ⟨by rw [a1', compressAll_of_lt _ _ hs'], ?_, ?_⟩
    · rw [a2, hm]; omega
    · rw [hm] at a3
      rw [a3, hl, Nat.sub_self, List.drop_zero]
  · intro hs
    have hs' : s.length = 64 := by omega
    refine ⟨?_, ?_⟩
    · rw [a1]
      exact hashAll_generic_block _ _ hs'
    · rw [a2, hs']; rfl

/-- Witness for C14: three bytes written into the freshly reset digest. -/
theorem write_exact_effect_witness :
    ∃ d1, Write blockfuncGeneric (Reset zeroDigest) [1, 2, 3] = some (d1, 3, none) ∧
      d1.H = (Reset zeroDigest).H ∧ d1.Nx = 3 ∧ d1.Block.take 3 = [1, 2, 3] := by
  obtain ⟨d1, hw, _, _, _, _, _, hs, _⟩ :=
    write_exact_effect (Reset zeroDigest) [1, 2, 3] (by decide) (by decide) (by decide)
  obtain ⟨a, b, c⟩ := hs (by decide)
  exact ⟨d1, hw, a, b, c⟩

/-- C16: the constant tables are those of the standard.  With `primes64` the increasing
list of the 64 primes up to 311, the value `Reset` stores in `H[i]` is
`floor(sqrt(p_i * 2^64)) mod 2^32` for `i < 8`, and `_K` has 64 entries with
`_K[i] = floor(cbrt(p_i * 2^96)) mod 2^32`, the floor of the cube root being the `r` with
`r^3 <= p_i * 2^96 < (r+1)^3`. -/
theorem constants_match_standard :
    (primes64.length = 64 ∧ primes64.Pairwise (fun a b => a < b) ∧
      ∀ p, p ∈ primes64 ↔ (Nat.Prime p ∧ p ≤ 311)) ∧
    (∀ d : Sha256Digest, ∀ i, i < 8 →
      Nat.sqrt (primes64.getD i 0 * 2 ^ 64) % 2 ^ 32 = (Reset d).H.toList.getD i 0) ∧
    _K.length = 64 ∧
    (∀ i, i < 64 →
      ∃ r, r ^ 3 ≤ primes64.getD i 0 * 2 ^ 96 ∧ primes64.getD i 0 * 2 ^ 96 < (r + 1) ^ 3 ∧
        r % 2 ^ 32 = _K.getD i 0) :=
  ⟨primes64_spec, fun _ i hi => constants_h i hi, constants_k.1, constants_k.2⟩

open blockfuncType

theorem absorbed_agree (bf : blockfuncType) (h : H8) (s : List Nat) (e1 e2 : Sha256Digest)
    (a : Absorbed bf h s e1) (b : Absorbed bf h s e2) :
    e1.H = e2.H ∧ e1.Nx = e2.Nx ∧ e1.Block.take e1.Nx.toNat = e2.Block.take e2.Nx.toNat ∧
      0 ≤ e1.Nx ∧ e1.Nx < 64 := by
  obtain ⟨x0, x1, x2⟩ := absorbed_nx bf h s e1 a
  obtain ⟨_, _, y2⟩ := absorbed_nx bf h s e2 b
  refine ⟨by rw [a.1, b.1], by rw [a.2.1, b.2.1], ?_, x0, x1⟩
  rw [x2, y2, a.2.2.1, b.2.2.1]

/-- C17: stale buffer bytes never influence the output (generic compression).  Two
digests that agree on `H`, `Nx` (with `0 <= Nx < 64`), `Len` and the first `Nx` bytes of
`Block` get the same digest from `CheckSum`, and after `Write(p)` with the same `p` they
agree again on `H`, `Nx`, `Len` and the first `Nx` bytes of `Block`.  Consequently
`Sum256Reuse(d, data) = Sum256(data)` for every digest `d`. -/
theorem stale_bytes_never_influence (d1 d2 : Sha256Digest) (hB1 : d1.Block.length = 64)
    (hB2 : d2.Block.length = 64) (h0 : 0 ≤ d1.Nx) (h1 : d1.Nx < 64) (hH : d1.H = d2.H)
    (hN : d1.Nx = d2.Nx) (hL : d1.Len = d2.Len)
    (hP : d1.Block.take d1.Nx.toNat = d2.Block.take d2.Nx.toNat) :
    (∃ e1 e2 out, CheckSum blockfuncGeneric d1 = some (e1, out) ∧
      CheckSum blockfuncGeneric d2 = some (e2, out)) ∧
    (∀ p : List Nat, ∃ e1 e2,
      Write blockfuncGeneric d1 p = some (e1, (p.length : Int), none) ∧
      Write blockfuncGeneric d2 p = some (e2, (p.length : Int), none) ∧
      e1.H = e2.H ∧ e1.Nx = e2.Nx ∧ e1.Len = e2.Len ∧
      e1.Block.take e1.Nx.toNat = e2.Block.take e2.Nx.toNat ∧ 0 ≤ e1.Nx ∧ e1.Nx < 64) ∧
    (∀ (d : Sha256Digest) (data : List Nat), d.Block.length = 64 →
      Sum256Reuse blockfuncGeneric d data = Sum256 blockfuncGeneric data) := by
  obtain ⟨n0, hn0⟩ := Int.eq_ofNat_of_zero_le h0
  have ht1 : d1.Nx.toNat = n0 := by rw [hn0]; exact Int.toNat_ofNat _
  have ht2 : d2.Nx.toNat = n0 := by rw [← hN, ht1]
  rw [ht1, ht2] at hP
  refine ⟨?_, ?_, ?_⟩
  · have c1 := checkSum_eq blockfuncGeneric d1 n0 hB1 hn0 (by omega)
    have c2 := checkSum_eq blockfuncGeneric d2 n0 hB2 (by rw [← hN, hn0]) (by omega)
    rw [← hH, ← hP, ← hL] at c2
    exact ⟨_, _, _, c1, c2⟩
  · intro p
    obtain ⟨e1, w1, a1, l1⟩ := write_char blockfuncGeneric d1 p hB1 h0 h1
    obtain ⟨e2, w2, a2, l2⟩ := write_char blockfuncGeneric d2 p hB2 (by omega) (by omega)
    rw [ht1, hP] at a1
    rw [ht2, ← hH] at a2
    obtain ⟨x1, x2, x3, x4, x5⟩ := absorbed_agree _ _ _ e1 e2 a1 a2
    exact ⟨e1, e2, w1, w2, x1, x2, by rw [l1, l2, hL], x3, x4, x5⟩
  · intro d data hB
    rw [sum256Reuse_eq _ d data hB, sum256_eq]

/-- Witness for C17: two reset digests whose buffers hold different stale bytes. -/
theorem stale_bytes_never_influence_witness :
    ∃ e1 e2 out,
      CheckSum blockfuncGeneric (Reset zeroDigest) = some (e1, out) ∧
      CheckSum blockfuncGeneric (Reset { zeroDigest with Block := (List.replicate 64 7) })
        = some (e2, out) :=
  (stale_bytes_never_influence (Reset zeroDigest)
    (Reset { zeroDigest with Block := (List.replicate 64 7) })
    (by decide) (by decide) (by decide) (by decide) (by decide) (by decide) (by decide)
    (by decide)).1

set_option maxRecDepth 100000 in
theorem checkSum_first : (CheckSum blockfuncGeneric (Reset zeroDigest)).map (fun r => r.2)
    = some digestEmpty := by decide!

set_option maxRecDepth 100000 in
theorem checkSum_second :
    ((CheckSum blockfuncGeneric (Reset zeroDigest)).bind fun r =>
      (CheckSum blockfuncGeneric r.1).map fun r2 => decide (r2.2 = digestEmpty)) = some false := by
  decide!

/-- C18: called directly, `CheckSum` is destructive in `H` only.  For a state with
`0 <= Nx < 64` (any value of `blockfunc`) it leaves `Block`, `Nx` and `Len` unchanged and
returns the 32-byte big-endian serialisation of the `H` it leaves in the digest; on the
freshly reset digest under the generic compression the first call returns the digest of
the empty input and a second call returns different bytes. -/
theorem checkSum_overwrites_H_only (bf : blockfuncType) (d : Sha256Digest)
    (hB : d.Block.length = 64) (h0 : 0 ≤ d.Nx) (h1 : d.Nx < 64) :
    (∃ d1 out, CheckSum bf d = some (d1, out) ∧ d1.Block = d.Block ∧ d1.Nx = d.Nx ∧
      d1.Len = d.Len ∧ out = digestBytes d1.H ∧ out.length = 32) ∧
    (CheckSum blockfuncGeneric (Reset zeroDigest)).map (fun r => r.2) = some digestEmpty ∧
    ((CheckSum blockfuncGeneric (Reset zeroDigest)).bind fun r =>
      (CheckSum blockfuncGeneric r.1).map fun r2 => decide (r2.2 = digestEmpty)) = some false := by
  obtain ⟨n0, hn0⟩ := Int.eq_ofNat_of_zero_le h0
  exact ⟨⟨_, _, checkSum_eq bf d n0 hB hn0 (by omega), rfl, rfl, rfl, rfl, digestBytes_length _⟩,
    checkSum_first, checkSum_second⟩

/-- Witness for C18: the zero-valued digest after `Reset`. -/
theorem checkSum_overwrites_H_only_witness :
    ∃ d1 out, CheckSum blockfuncGeneric (Reset zeroDigest) = some (d1, out) ∧
      d1.Block = (Reset zeroDigest).Block ∧ d1.Nx = (Reset zeroDigest).Nx ∧
      d1.Len = (Reset zeroDigest).Len ∧ out = digestBytes d1.H ∧ out.length = 32 :=
  (checkSum_overwrites_H_only blockfuncGeneric (Reset zeroDigest) (by decide) (by decide)
    (by decide)).1

/-- C19: the buffer count tracks the length.  In every state reached from a reset digest
by a sequence of `Write`, `Sum` and `Reset` calls, with `X` the bytes written since the
last `Reset`: `Nx = Len mod 64`, `Len = len(X) mod 2^64`, the first `Nx` bytes of `Block`
are the last `Nx` bytes of `X`, and under the generic compression `H` is the compression
folded over the `len(X) / 64` full blocks of `X` from the initial values. -/
theorem buffer_count_tracks_length (bf : blockfuncType) (d0 : Sha256Digest) (ops : List Op)
    (hB : d0.Block.length = 64) :
    ∃ d, run bf (Reset d0) ops = some d ∧
      d.Nx = ((d.Len % 64 : Nat) : Int) ∧
      d.Len = (writtenFrom [] ops).length % 2 ^ 64 ∧
      d.Block.take d.Nx.toNat
        = (writtenFrom [] ops).drop ((writtenFrom [] ops).length - d.Nx.toNat) ∧
      (bf = blockfuncGeneric →
        d.H = (fullBlocks (writtenFrom [] ops)).foldl compress (Reset d0).H ∧
        (fullBlocks (writtenFrom [] ops)).length = (writtenFrom [] ops).length / 64) := by
  obtain ⟨d, hr, ⟨a1, a2, a3, a4⟩, hl⟩ := tracks_run bf ops [] (Reset d0) (tracks_reset bf d0 hB)
  have ht : d.Nx.toNat = (writtenFrom [] ops).length % 64 := by
    rw [a2]; exact Int.toNat_ofNat _
  refine ⟨d, hr, ?_, hl, ?_, ?_⟩
  · rw [a2, hl]; congr 1; omega
  · rw [ht, a3]
  · intro hbf
    subst hbf
    refine ⟨?_, by simp [fullBlocks]⟩
    rw [a1]
    simp only [hashAll, if_true]
    rfl

/-- Witness for C19: a write, a sum, a reset and two more writes on the zero-valued
digest. -/
theorem buffer_count_tracks_length_witness :
    ∃ d, run blockfuncGeneric (Reset zeroDigest)
        [Op.write [1, 2], Op.sum [], Op.reset, Op.write [3], Op.write [4, 5]] = some d ∧
      d.Nx = ((d.Len % 64 : Nat) : Int) ∧ d.Len = 3 ∧ d.Block.take d.Nx.toNat = [3, 4, 5] := by
  obtain ⟨d, hr, a, b, c, _⟩ := buffer_count_tracks_length blockfuncGeneric zeroDigest
    [Op.write [1, 2], Op.sum [], Op.reset, Op.write [3], Op.write [4, 5]] (by decide)
  have hw : writtenFrom [] [Op.write [1, 2], Op.sum [], Op.reset, Op.write [3],
      Op.write [4, 5]] = [3, 4, 5] := by decide
  rw [hw] at b c
  have hb : d.Len = 3 := by rw [b]; decide
  have hn : d.Nx.toNat = 3 := by rw [a, hb]; decide
  refine ⟨d, hr, a, hb, ?_⟩
  rw [c, hn]
  decide

theorem write_isSome (bf : blockfuncType) (d : Sha256Digest) (p : List Nat)
    (hB : d.Block.length = 64) (h0 : 0 ≤ d.Nx) (h1 : d.Nx < 64) : (Write bf d p).isSome := by
  obtain ⟨d1, hw, _⟩ := write_char bf d p hB h0 h1
  rw [hw]; rfl

theorem checkSum_isSome (bf : blockfuncType) (d : Sha256Digest)
    (hB : d.Block.length = 64) (h0 : 0 ≤ d.Nx) (h1 : d.Nx < 64) : (CheckSum bf d).isSome := by
  obtain ⟨n0, hn0⟩ := Int.eq_ofNat_of_zero_le h0
  rw [checkSum_eq bf d n0 hB hn0 (by omega)]; rfl

/-- The checks of the embedding are live: outside the invariant `CheckSum` and `Write`
do panic (`Nx = 64` makes `k[n] = 0x80` fail, `Nx = 65` makes `Block[Nx:]` fail). -/
theorem panics_outside_invariant :
    CheckSum blockfuncGeneric { zeroDigest with Nx := 64 } = none ∧
    CheckSum blockfuncGeneric { zeroDigest with Nx := -1 } = none ∧
    Write blockfuncGeneric { zeroDigest with Nx := 65 } [1] = none := by
  refine ⟨by decide, by decide, by decide⟩

/-- C20: no out-of-range access under the buffer invariant.  For a state with
`0 <= Nx < 64` and any `p`, under any value of `blockfunc`, `Write(p)`, `CheckSum` and
`blockGeneric` evaluate every index and slice expression in range (none of them panics):
the index of `k[n] = 0x80` is at most 63; `Block[Nx:]` is well formed and the bound
`n = len(p) &^ 63` of `p[:n]` and `p[n:]` is `len(p)` rounded down to a multiple of 64;
`blockGeneric` reads `p[j..j+3]` only with `j + 3 < len(p)`.  Every state reached from a
reset digest has these properties. -/
theorem no_out_of_range_access (bf : blockfuncType) (d : Sha256Digest) (p : List Nat)
    (hB : d.Block.length = 64) (h0 : 0 ≤ d.Nx) (h1 : d.Nx < 64) :
    (Write bf d p).isSome ∧ (CheckSum bf d).isSome ∧ (blockGeneric d p).isSome ∧
    (d.Nx ≤ 63 ∧ (padStart d).isSome) ∧
    ((copyAt d.Block d.Nx p).isSome ∧
      ∀ q : List Nat, bitClear q.length (Chunk64 - 1) = 64 * (q.length / 64) ∧
        bitClear q.length (Chunk64 - 1) ≤ q.length ∧
        (slice q 0 (bitClear q.length (Chunk64 - 1))).isSome ∧
        (sliceFrom q (bitClear q.length (Chunk64 - 1))).isSome) ∧
    (∀ (w : List Nat) (h : H8) (q : List Nat), w.length = 64 → 64 ≤ q.length →
      (∀ i, i < 16 → i * 4 + 3 < q.length ∧ (loadStep q w i).isSome) ∧
      (blockGenericBody w h q).isSome) ∧
    (∀ (d0 : Sha256Digest) (ops : List Op), d0.Block.length = 64 →
      ∃ d1, run bf (Reset d0) ops = some d1 ∧ d1.Block.length = 64 ∧ 0 ≤ d1.Nx ∧ d1.Nx < 64 ∧
        ∀ q : List Nat, (Write bf d1 q).isSome ∧ (CheckSum bf d1).isSome ∧
          (blockGeneric d1 q).isSome) := by
  obtain ⟨n0, hn0⟩ := Int.eq_ofNat_of_zero_le h0
  refine ⟨write_isSome bf d p hB h0 h1, checkSum_isSome bf d hB h0 h1,
    by rw [blockGeneric_eq]; rfl, ⟨by omega, ?_⟩, ⟨?_, ?_⟩, ?_, ?_⟩
  · rw [padStart_eq d n0 hB hn0 (by omega)]; rfl
  · rw [hn0, copyAt_eq d.Block p n0 (by omega)]; rfl
  · intro q
    have hn : 64 * (q.length / 64) ≤ q.length := Nat.mul_div_le _ _
    rw [bitClear_63]
    refine ⟨rfl, hn, ?_, ?_⟩
    · simp only [slice, Nat.zero_le, hn, and_self, if_true, Option.isSome_some]
    · simp only [sliceFrom, hn, if_true, Option.isSome_some]
  · intro w h q hw hq
    refine ⟨fun i hi => ⟨by omega, ?_⟩, ?_⟩
    · rw [loadStep_eq q w i (by omega) (by omega)]; rfl
    · rw [blockGenericBody_eq w h q hw hq]; rfl
  · intro d0 ops hB0
    obtain ⟨d1, hr, ht⟩ := tracks_run bf ops [] (Reset d0) (tracks_reset bf d0 hB0)
    obtain ⟨x0, x1, _⟩ := absorbed_nx bf _ _ d1 ht.1
    have hB1 := ht.1.2.2.2
    exact ⟨d1, hr, hB1, x0, x1, fun q => ⟨write_isSome bf d1 q hB1 x0 x1,
      checkSum_isSome bf d1 hB1 x0 x1, by rw [blockGeneric_eq]; rfl⟩⟩

/-- Witness for C20: one byte written into the zero-valued digest after `Reset`. -/
theorem no_out_of_range_access_witness :
    (Write blockfuncGeneric (Reset zeroDigest) [1]).isSome ∧
    (CheckSum blockfuncGeneric (Reset zeroDigest)).isSome ∧
    (blockGeneric (Reset zeroDigest) [1]).isSome := by
  obtain ⟨a, b, c, _⟩ := no_out_of_range_access blockfuncGeneric (Reset zeroDigest) [1]
    (by decide) (by decide) (by decide)
  exact ⟨a, b, c⟩

open blockfuncType

/-- C1: with the generic compression selected, for every byte sequence shorter than
`2^61`, `Sum256(data)` is the SHA-256 digest of the standard: `data` padded with `0x80`,
the fewest zero bytes that bring the length to 56 modulo 64 and the 64-bit big-endian bit
length; the compression function folded over the 64-byte blocks from the eight initial
values; the eight final words written big-endian, word 0 first. -/
theorem sum256_is_standard_sha256 (data : List Nat) (hb : Bytes data)
    (hl : data.length < 2 ^ 61) :
    Sum256 blockfuncGeneric data = some (specSha256 data) ∧
    specSha256 data
      = digestBytes ((fullBlocks (data ++ [0x80]
          ++ List.replicate ((119 - data.length % 64) % 64) 0 ++ be64 (8 * data.length))).foldl
            specCompress ⟨init0, init1, init2, init3, init4, init5, init6, init7⟩) ∧
    (data ++ [0x80] ++ List.replicate ((119 - data.length % 64) % 64) 0
      ++ be64 (8 * data.length)).length % 64 = 0 ∧
    (data.length + 1 + (119 - data.length % 64) % 64) % 64 = 56 ∧
    (119 - data.length % 64) % 64 < 64 := by
  refine ⟨sum256_eq_spec data hb hl, rfl, ?_, by omega, by omega⟩
  simp only [List.length_append, List.length_replicate, be64, List.length_cons, List.length_nil]
  omega

/-- Witness for C1: the three bytes "abc". -/
theorem sum256_is_standard_sha256_witness :
    Sum256 blockfuncGeneric [0x61, 0x62, 0x63] = some (specSha256 [0x61, 0x62, 0x63]) :=
  (sum256_is_standard_sha256 [0x61, 0x62, 0x63] (by decide) (by decide)).1

theorem writtenFrom_writes (chunks : List (List Nat)) : ∀ X : List Nat,
    writtenFrom X (chunks.map Op.write) = X ++ chunks.flatten := by
  induction chunks with
  | nil => intro X; simp [writtenFrom]
  | cons c cs ih =>
    intro X
    simp only [List.map_cons, writtenFrom, ih, List.flatten_cons, List.append_assoc]

/-- C2: chunking invariance under the generic compression.  A digest that is `Reset` and
then receives `Write(c1)`, ..., `Write(cn)` returns from `Sum(nil)` exactly the 32 bytes
that `Sum256` returns on the concatenation of the chunks, whatever their lengths. -/
theorem chunking_invariance (d0 : Sha256Digest) (chunks : List (List Nat))
    (hB : d0.Block.length = 64) :
    ∃ d1 out, run blockfuncGeneric (Reset d0) (chunks.map Op.write) = some d1 ∧
      Sum blockfuncGeneric d1 [] = some (d1, out) ∧
      Sum256 blockfuncGeneric chunks.flatten = some out ∧ out.length = 32 := by
  obtain ⟨d1, hr, ht⟩ := tracks_run blockfuncGeneric (chunks.map Op.write) [] (Reset d0)
    (tracks_reset _ d0 hB)
  rw [writtenFrom_writes, List.nil_append] at ht
  exact ⟨d1, _, hr, tracks_sum _ _ [] d1 ht, by rw [sum256_eq]; rfl, digestBytes_length _⟩

/-- Witness for C2: three chunks on the zero-valued digest. -/
theorem chunking_invariance_witness :
    ∃ d1 out, run blockfuncGeneric (Reset zeroDigest)
        ([[1, 2], [], [3]].map Op.write) = some d1 ∧
      Sum blockfuncGeneric d1 [] = some (d1, out) ∧
      Sum256 blockfuncGeneric [[1, 2], [], [3]].flatten = some out ∧ out.length = 32 :=
  chunking_invariance zeroDigest [[1, 2], [], [3]] (by decide)

open blockfuncType

set_option maxRecDepth 100000 in
theorem vector_empty : Sum256 blockfuncGeneric [] = some digestEmpty := by decide!

set_option maxRecDepth 100000 in
theorem vector_abc : Sum256 blockfuncGeneric (asciiBytes "abc") = some digestAbc := by decide!

set_option maxRecDepth 100000 in
theorem vector_112 : Sum256 blockfuncGeneric (asciiBytes
    "abcdefghbcdefghicdefghijdefghijkefghijklfghijklmghijklmnhijklmnoijklmnopjklmnopqklmnopqrlmnopqrsmnopqrstnopqrstu")
    = some digest112 := by decide!

set_option maxRecDepth 100000 in
theorem vector_lengths : (asciiBytes "abc").length = 3 ∧ (asciiBytes
    "abcdefghbcdefghicdefghijdefghijkefghijklfghijklmghijklmnhijklmnoijklmnopjklmnopqklmnopqrlmnopqrsmnopqrstnopqrstu").length
    = 112 := by decide

/-- C3: with the generic compression selected, `Sum256` reproduces the published test
vectors for the empty input, for the 3 bytes "abc" and for the 112-byte two-block
message. -/
theorem sum256_test_vectors :
    Sum256 blockfuncGeneric [] = some digestEmpty ∧
    Sum256 blockfuncGeneric (asciiBytes "abc") = some digestAbc ∧
    Sum256 blockfuncGeneric (asciiBytes
      "abcdefghbcdefghicdefghijdefghijkefghijklfghijklmghijklmnhijklmnoijklmnopjklmnopqklmnopqrlmnopqrsmnopqrstnopqrstu")
      = some digest112 ∧
    (asciiBytes "abc").length = 3 ∧
    (asciiBytes
      "abcdefghbcdefghicdefghijdefghijkefghijklfghijklmghijklmnhijklmnoijklmnopjklmnopqklmnopqrlmnopqrsmnopqrstnopqrstu").length
      = 112 :=
  ⟨vector_empty, vector_abc, vector_112, vector_lengths.1, vector_lengths.2⟩

open blockfuncType

/-- C4: non-destructive finalize under the generic compression.  On a freshly reset
digest, `Write(A); d1 = Sum(nil); Write(B); d2 = Sum(nil)` gives `d1 = Sum256(A)` and
`d2 = Sum256(A ++ B)`; the intervening `Sum` leaves the digest as it was. -/
theorem nondestructive_finalize (d0 : Sha256Digest) (A B : List Nat)
    (hB : d0.Block.length = 64) :
    ∃ dA dB o1 o2,
      Write blockfuncGeneric (Reset d0) A = some (dA, (A.length : Int), none) ∧
      Sum blockfuncGeneric dA [] = some (dA, o1) ∧
      Write blockfuncGeneric dA B = some (dB, (B.length : Int), none) ∧
      Sum blockfuncGeneric dB [] = some (dB, o2) ∧
      Sum256 blockfuncGeneric A = some o1 ∧ Sum256 blockfuncGeneric (A ++ B) = some o2 := by
  obtain ⟨dA, wA, tA⟩ := tracks_write blockfuncGeneric [] A (Reset d0) (tracks_reset _ d0 hB)
  rw [List.nil_append] at tA
  obtain ⟨dB, wB, tB⟩ := tracks_write blockfuncGeneric A B dA tA
  exact ⟨dA, dB, _, _, wA, tracks_sum _ _ [] dA tA, wB, tracks_sum _ _ [] dB tB,
    by rw [sum256_eq]; rfl, by rw [sum256_eq]; rfl⟩

/-- Witness for C4: `A = [1, 2]`, `B = [3]` on the zero-valued digest. -/
theorem nondestructive_finalize_witness :
    ∃ dA dB o1 o2,
      Write blockfuncGeneric (Reset zeroDigest) [1, 2] = some (dA, 2, none) ∧
      Sum blockfuncGeneric dA [] = some (dA, o1) ∧
      Write blockfuncGeneric dA [3] = some (dB, 1, none) ∧
      Sum blockfuncGeneric dB [] = some (dB, o2) ∧
      Sum256 blockfuncGeneric [1, 2] = some o1 ∧ Sum256 blockfuncGeneric [1, 2, 3] = some o2 :=
  nondestructive_finalize zeroDigest [1, 2] [3] (by decide)

/-- C5: for a state with `0 <= Nx < 64` and any prefix `in`, under any value of
`blockfunc`, `Sum(in)` returns `in` followed by the 32 bytes that `CheckSum` computes on a
copy of the digest, and leaves the digest itself unchanged; a second `Sum` returns the
same bytes. -/
theorem sum_appends_digest (bf : blockfuncType) (d : Sha256Digest) (inp : List Nat)
    (hB : d.Block.length = 64) (h0 : 0 ≤ d.Nx) (h1 : d.Nx < 64) :
    ∃ dc digest, CheckSum bf d = some (dc, digest) ∧ digest.length = 32 ∧
      Sum bf d inp = some (d, inp ++ digest) ∧
      (inp ++ digest).length = inp.length + 32 ∧
      (inp ++ digest).take inp.length = inp ∧ (inp ++ digest).drop inp.length = digest ∧
      ((Sum bf d inp).bind fun r => Sum bf r.1 inp) = some (d, inp ++ digest) := by
  obtain ⟨n0, hn0⟩ := Int.eq_ofNat_of_zero_le h0
  have hc := checkSum_eq bf d n0 hB hn0 (by omega)
  have hs : Sum bf d inp = some (d, inp ++ digestBytes
      (hashAll bf d.H (padBlocks (d.Block.take n0) d.Len))) := by
    simp only [Sum, hc, Option.some_bind]
  refine ⟨_, _, hc, digestBytes_length _, hs, ?_, ?_, ?_, ?_⟩
  · rw [List.length_append, digestBytes_length]
  · exact List.take_left _ _
  · exact List.drop_left _ _
  · rw [hs, Option.some_bind]
    exact hs

/-- Witness for C5: the zero-valued digest after `Reset`, prefix `[9]`. -/
theorem sum_appends_digest_witness :
    ∃ dc digest, CheckSum blockfuncGeneric (Reset zeroDigest) = some (dc, digest) ∧
      digest.length = 32 ∧
      Sum blockfuncGeneric (Reset zeroDigest) [9] = some (Reset zeroDigest, [9] ++ digest) := by
  obtain ⟨dc, digest, a, b, c, _⟩ := sum_appends_digest blockfuncGeneric (Reset zeroDigest) [9]
    (by decide) (by decide) (by decide)
  exact ⟨dc, digest, a, b, c⟩

/-- C6: `Reset` discards all prior progress (generic compression).  A digest that
receives `Write(X); Reset(); Write(Y)` returns from `Sum(nil)` exactly `Sum256(Y)`,
whatever `X` was, although `Reset` leaves the `Block` buffer as `Write(X)` left it. -/
theorem reset_discards_progress (d : Sha256Digest) (X Y : List Nat)
    (hB : d.Block.length = 64) (h0 : 0 ≤ d.Nx) (h1 : d.Nx < 64) :
    ∃ dX dY out,
      Write blockfuncGeneric d X = some (dX, (X.length : Int), none) ∧
      (Reset dX).Block = dX.Block ∧
      Write blockfuncGeneric (Reset dX) Y = some (dY, (Y.length : Int), none) ∧
      Sum blockfuncGeneric dY [] = some (dY, out) ∧ Sum256 blockfuncGeneric Y = some out := by
  obtain ⟨dX, wX, pX⟩ := write_char blockfuncGeneric d X hB h0 h1
  obtain ⟨dY, wY, tY⟩ := tracks_write blockfuncGeneric [] Y (Reset dX)
    (tracks_reset _ dX pX.1.2.2.2)
  rw [List.nil_append] at tY
  exact ⟨dX, dY, _, wX, rfl, wY, tracks_sum _ _ [] dY tY, by rw [sum256_eq]; rfl⟩

/-- Witness for C6: `X = [1, 2, 3]`, `Y = [4]` on the zero-valued digest. -/
theorem reset_discards_progress_witness :
    ∃ dX dY out,
      Write blockfuncGeneric zeroDigest [1, 2, 3] = some (dX, 3, none) ∧
      (Reset dX).Block = dX.Block ∧
      Write blockfuncGeneric (Reset dX) [4] = some (dY, 1, none) ∧
      Sum blockfuncGeneric dY [] = some (dY, out) ∧ Sum256 blockfuncGeneric [4] = some out :=
  reset_discards_progress zeroDigest [1, 2, 3] [4] (by decide) (by decide) (by decide)

/-- C7: for a state with `0 <= Nx < 64` and any `p`, under any value of `blockfunc`,
`Write(p)` returns `nn = len(p)` and a nil error, and sets `Len` to
`(Len + len(p)) mod 2^64`. -/
theorem write_returns_len_nil (bf : blockfuncType) (d : Sha256Digest) (p : List Nat)
    (hB : d.Block.length = 64) (h0 : 0 ≤ d.Nx) (h1 : d.Nx < 64) :
    ∃ d1, Write bf d p = some (d1, (p.length : Int), none) ∧
      d1.Len = (d.Len + p.length) % 2 ^ 64 := by
  obtain ⟨d1, hw, hp⟩ := write_char bf d p hB h0 h1
  exact ⟨d1, hw, hp.2⟩

/-- Witness for C7: two bytes written at `Len = 2^64 - 1`, where the length wraps. -/
theorem write_returns_len_nil_witness :
    ∃ d1, Write blockfuncGeneric { zeroDigest with Len := 2 ^ 64 - 1 } [1, 2]
        = some (d1, 2, none) ∧ d1.Len = 1 :=
  write_returns_len_nil blockfuncGeneric { zeroDigest with Len := 2 ^ 64 - 1 } [1, 2]
    (by decide) (by decide) (by decide)

/-- C8: pending-buffer invariant.  Under any value of `blockfunc`, `Write` takes a state
with `0 <= Nx < 64` to a state with `0 <= Nx < 64`; `Reset` sets `Nx = 0`; so every state
reached from a reset digest by `Write`, `Sum` and `Reset` calls has `Nx < 64`. -/
theorem pending_buffer_invariant (bf : blockfuncType) (d : Sha256Digest) (p : List Nat)
    (hB : d.Block.length = 64) (h0 : 0 ≤ d.Nx) (h1 : d.Nx < 64) :
    (∃ d1, Write bf d p = some (d1, (p.length : Int), none) ∧ 0 ≤ d1.Nx ∧ d1.Nx < 64 ∧
      d1.Block.length = 64) ∧
    (∀ e : Sha256Digest, (Reset e).Nx = 0 ∧ (Reset e).Block = e.Block) ∧
    (∀ (d0 : Sha256Digest) (ops : List Op), d0.Block.length = 64 →
      ∃ d1, run bf (Reset d0) ops = some d1 ∧ 0 ≤ d1.Nx ∧ d1.Nx < 64 ∧
        d1.Block.length = 64) := by
  refine ⟨?_, fun e => ⟨rfl, rfl⟩, ?_⟩
  · obtain ⟨d1, hw, hp⟩ := write_char bf d p hB h0 h1
    obtain ⟨x0, x1, _⟩ := absorbed_nx bf _ _ d1 hp.1
    exact ⟨d1, hw, x0, x1, hp.1.2.2.2⟩
  · intro d0 ops hB0
    obtain ⟨d1, hr, ht⟩ := tracks_run bf ops [] (Reset d0) (tracks_reset bf d0 hB0)
    obtain ⟨x0, x1, _⟩ := absorbed_nx bf _ _ d1 ht.1
    exact ⟨d1, hr, x0, x1, ht.1.2.2.2⟩

/-- Witness for C8: 64 bytes written at `Nx = 63` leave `Nx = 63`. -/
theorem pending_buffer_invariant_witness :
    ∃ d1, Write blockfuncGeneric { zeroDigest with Nx := 63 } (List.replicate 64 5)
        = some (d1, ((List.replicate 64 5).length : Int), none) ∧ 0 ≤ d1.Nx ∧ d1.Nx < 64 ∧
      d1.Block.length = 64 :=
  (pending_buffer_invariant blockfuncGeneric { zeroDigest with Nx := 63 } (List.replicate 64 5)
    (by decide) (by decide) (by decide)).1

open blockfuncType

theorem hashAll_stub (bf : blockfuncType) (hbf : bf ≠ blockfuncGeneric) (h : H8)
    (p : List Nat) : hashAll bf h p = h := by
  simp only [hashAll, hbf, if_false]

theorem sum256_stub (bf : blockfuncType) (hbf : bf ≠ blockfuncGeneric) (data : List Nat) :
    Sum256 bf data = some (digestBytes (Reset zeroDigest).H) := by
  rw [sum256_eq, finalH, hashAll_stub bf hbf, hashAll_stub bf hbf]
  rfl

set_option maxRecDepth 100000 in
theorem stub_block_evaluated :
    init "amd64" ⟨true, true, true, false, false, false⟩ = blockfuncSha ∧
    block blockfuncSha (Reset zeroDigest) (List.replicate 64 0) = some (Reset zeroDigest) ∧
    blockGeneric (Reset zeroDigest) (List.replicate 64 0) ≠ some (Reset zeroDigest) ∧
    digestBytes (Reset zeroDigest).H
      = [0x6a, 0x09, 0xe6, 0x67, 0xbb, 0x67, 0xae, 0x85, 0x3c, 0x6e, 0xf3, 0x72, 0xa5, 0x4f, 0xf5, 0x3a,
       0x51, 0x0e, 0x52, 0x7f, 0x9b, 0x05, 0x68, 0x8c, 0x1f, 0x83, 0xd9, 0xab, 0x5b, 0xe0, 0xcd, 0x19] ∧
    digestBytes (Reset zeroDigest).H ≠ digestAbc := by
  decide!

/-- C9 fails on the code; the code evaluated at a failing input.  On "amd64" with the
flags sha, ssse3 and sse41, `init` selects `blockfuncSha`.  With `blockShaGo` as defined
in `sha256block_other.go` (an empty body), `block(d, p)` on the reset digest and a block
of 64 zero bytes leaves the digest unchanged, whereas `blockGeneric(d, p)` replaces `H`.
So `Sum256("abc")` returns the serialised initial values `6a09e667...5be0cd19`, as it does
for every input, and not the SHA-256 digest `ba7816bf...f20015ad` that it returns under
the generic compression. -/
theorem stub_backend_breaks_digest :
    init "amd64" ⟨true, true, true, false, false, false⟩ = blockfuncSha ∧
    block blockfuncSha (Reset zeroDigest) (List.replicate 64 0) = some (Reset zeroDigest) ∧
    blockGeneric (Reset zeroDigest) (List.replicate 64 0) ≠ some (Reset zeroDigest) ∧
    Sum256 blockfuncSha (asciiBytes "abc") = some (digestBytes (Reset zeroDigest).H) ∧
    digestBytes (Reset zeroDigest).H
      = [0x6a, 0x09, 0xe6, 0x67, 0xbb, 0x67, 0xae, 0x85, 0x3c, 0x6e, 0xf3, 0x72, 0xa5, 0x4f, 0xf5, 0x3a,
       0x51, 0x0e, 0x52, 0x7f, 0x9b, 0x05, 0x68, 0x8c, 0x1f, 0x83, 0xd9, 0xab, 0x5b, 0xe0, 0xcd, 0x19] ∧
    Sum256 blockfuncGeneric (asciiBytes "abc") = some digestAbc ∧
    Sum256 blockfuncSha (asciiBytes "abc") ≠ Sum256 blockfuncGeneric (asciiBytes "abc") ∧
    (∀ data : List Nat, Sum256 blockfuncSha data = some (digestBytes (Reset zeroDigest).H)) := by
  have hs := sum256_stub blockfuncSha (by decide)
  obtain ⟨e1, e2, e3, e4, e5⟩ := stub_block_evaluated
  refine ⟨e1, e2, e3, hs _, e4, vector_abc, ?_, hs⟩
  rw [hs, vector_abc]
  intro h
  exact e5 (Option.some.inj h)

theorem padBlocks_tail (pre : List Nat) (len : Nat) (hp : pre.length < 64) :
    (padBlocks pre len).length % 64 = 0 ∧
    (padBlocks pre len).drop ((padBlocks pre len).length - 8) = be64 (len * 8 % 2 ^ 64) := by
  have h8 : ∀ v, (be64 v).length = 8 := fun v => rfl
  rw [padBlocks, shl3_eq]
  split
  · rename_i h
    constructor
    · simp only [List.length_append, List.length_replicate, h8, List.length_cons,
        List.length_nil]
      omega
    · have hl : (pre ++ [0x80] ++ List.replicate (55 - pre.length) 0
          ++ be64 (len * 8 % 2 ^ 64)).length - 8
          = (pre ++ [0x80] ++ List.replicate (55 - pre.length) 0).length := by
        rw [List.length_append _ (be64 _), h8]; omega
      rw [hl, List.drop_left]
  · rename_i h
    constructor
    · simp only [List.length_append, List.length_replicate, h8, List.length_cons,
        List.length_nil]
      omega
    · rw [← List.append_assoc]
      have hl : (pre ++ [0x80] ++ List.replicate (63 - pre.length) 0
          ++ List.replicate 56 0 ++ be64 (len * 8 % 2 ^ 64)).length - 8
          = ((pre ++ [0x80] ++ List.replicate (63 - pre.length) 0)
              ++ List.replicate 56 0).length := by
        rw [List.length_append _ (be64 _), h8]; omega
      rw [hl, List.drop_left]

theorem padBlocks_len_congr (pre : List Nat) (l1 l2 : Nat) (h : l1 % 2 ^ 61 = l2 % 2 ^ 61) :
    padBlocks pre l1 = padBlocks pre l2 := by
  have hv : l1 * 8 % 2 ^ 64 = l2 * 8 % 2 ^ 64 := by omega
  simp only [padBlocks, shl3_eq, hv]

/-- C10: the length field wraps silently modulo `2^64`.  For a state with
`0 <= Nx < 64`, under any value of `blockfunc`, `CheckSum` never fails; it is `block`
applied to the padded pending bytes, whose length is a multiple of 64 and whose last 8
bytes (bytes 56..63 of the last padding block) are the big-endian encoding of
`(Len * 8) mod 2^64`.  Two states that agree on `H`, `Nx` and the first `Nx` bytes of
`Block` and whose `Len` values differ by a multiple of `2^61` get the same digest. -/
theorem length_field_wraps (bf : blockfuncType) (d1 d2 : Sha256Digest)
    (hB1 : d1.Block.length = 64) (hB2 : d2.Block.length = 64) (h0 : 0 ≤ d1.Nx)
    (h1 : d1.Nx < 64) (hH : d1.H = d2.H) (hN : d1.Nx = d2.Nx)
    (hP : d1.Block.take d1.Nx.toNat = d2.Block.take d2.Nx.toNat)
    (hL : d1.Len % 2 ^ 61 = d2.Len % 2 ^ 61) :
    (CheckSum bf d1 = (block bf d1 (padBlocks (d1.Block.take d1.Nx.toNat) d1.Len)).map
        (fun e => (e, digestBytes e.H)) ∧
      (CheckSum bf d1).isSome ∧
      (padBlocks (d1.Block.take d1.Nx.toNat) d1.Len).length % 64 = 0 ∧
      (padBlocks (d1.Block.take d1.Nx.toNat) d1.Len).drop
          ((padBlocks (d1.Block.take d1.Nx.toNat) d1.Len).length - 8)
        = be64 (d1.Len * 8 % 2 ^ 64)) ∧
    (∃ e1 e2 out, CheckSum bf d1 = some (e1, out) ∧ CheckSum bf d2 = some (e2, out)) := by
  obtain ⟨n0, hn0⟩ := Int.eq_ofNat_of_zero_le h0
  have ht1 : d1.Nx.toNat = n0 := by rw [hn0]; exact Int.toNat_ofNat _
  have ht2 : d2.Nx.toNat = n0 := by rw [← hN, ht1]
  rw [ht1, ht2] at hP
  rw [ht1]
  have c1 := checkSum_eq bf d1 n0 hB1 hn0 (by omega)
  have c2 := checkSum_eq bf d2 n0 hB2 (by rw [← hN, hn0]) (by omega)
  have hl : (d1.Block.take n0).length < 64 := by rw [List.length_take]; omega
  obtain ⟨t1, t2⟩ := padBlocks_tail (d1.Block.take n0) d1.Len hl
  refine ⟨⟨?_, by rw [c1]; rfl, t1, t2⟩, ?_⟩
  · rw [c1, block_eq]; rfl
  · rw [← hH, ← hP, ← padBlocks_len_congr _ _ _ hL] at c2
    exact ⟨_, _, _, c1, c2⟩

/-- Witness for C10: `Len = 0` and `Len = 2^61` on the reset digest give one digest. -/
theorem length_field_wraps_witness :
    ∃ e1 e2 out, CheckSum blockfuncGeneric (Reset zeroDigest) = some (e1, out) ∧
      CheckSum blockfuncGeneric { Reset zeroDigest with Len := 2 ^ 61 } = some (e2, out) :=
  (length_field_wraps blockfuncGeneric (Reset zeroDigest)
    { Reset zeroDigest with Len := 2 ^ 61 }
    (by decide) (by decide) (by decide) (by decide) (by decide) (by decide) (by decide)
    (by decide)).2

end Sha256
